import Mathlib

/-!
# Verification of the obsidian-weekly-tasks parsing and aggregation core

Shallow embedding of the repository's Markdown list parser, temporal
classifier and task-tree merge (`src/lib.ts`, `src/datetime.ts`), together
with proofs of the specified properties.

Conventions of the embedding:
* TypeScript classes become Lean structures / inductives; the mutable
  `parent` back-pointer is not stored (the tree is fully determined by
  `children`; the imperative parent-walk of the tree builder is modelled by
  an explicit spine of ancestors).
* JavaScript `Date` arithmetic is modelled as proleptic-Gregorian
  day-number arithmetic at a fixed zero UTC offset (the spec is explicit
  that nothing beyond local calendar dates is intended); the legacy
  two-digit-year adjustment of the `Date` constructor is not modelled.
* Functions that `throw` are embedded with `Except`/`Option` results.
-/

namespace WeeklyTasks

/-- JavaScript regex `\s` (whitespace class). -/
def isWS (c : Char) : Bool :=
  c = ' ' || c = '\t' || c = '\n' || c = '\r' || c = '\x0b' || c = '\x0c' ||
  c = ' ' || c = ' ' || (' ' ≤ c && c ≤ ' ') ||
  c = ' ' || c = ' ' || c = ' ' || c = ' ' ||
  c = '　' || c = '﻿'

/-- JavaScript regex `.` (without the `s` flag): any character except a
line terminator. -/
def isDot (c : Char) : Bool :=
  !(c = '\n' || c = '\r' || c = ' ' || c = ' ')

/-- `CHECKBOX_UNDONE = " "` from `src/lib.ts`. -/
def CHECKBOX_UNDONE : Char := ' '

/-- Embedding of `parseCheckBox` (`src/lib.ts`): match of
`/^\[(.)] (.+)$/` returning the captured marker character and content. -/
def parseCheckBox (text : String) : Option (Char × String) :=
  match text.data with
  | '[' :: c :: ']' :: ' ' :: rest =>
    if isDot c ∧ rest ≠ [] ∧ rest.all isDot then some (c, ⟨rest⟩) else none
  | _ => none

/-- Embedding of `MDListNode` (`src/lib.ts`).  The `parent` back-reference
and the source-file payload are omitted: neither affects any verified
property, and the tree is fully determined by `children`. -/
inductive MDListNode where
  | mk (checkText : Option Char) (text : String) (children : List MDListNode)
deriving Repr

mutual
def MDListNode.decEq (a b : MDListNode) : Decidable (a = b) :=
  match a, b with
  | .mk c1 t1 l1, .mk c2 t2 l2 =>
    if h1 : c1 = c2 then
      if h2 : t1 = t2 then
        match MDListNode.decEqList l1 l2 with
        | isTrue h3 => isTrue (by rw [h1, h2, h3])
        | isFalse h3 => isFalse (by intro h; injection h; contradiction)
      else isFalse (by intro h; injection h; contradiction)
    else isFalse (by intro h; injection h; contradiction)

def MDListNode.decEqList (a b : List MDListNode) : Decidable (a = b) :=
  match a, b with
  | [], [] => isTrue rfl
  | [], _ :: _ => isFalse (by simp)
  | _ :: _, [] => isFalse (by simp)
  | x :: xs, y :: ys =>
    match MDListNode.decEq x y, MDListNode.decEqList xs ys with
    | isTrue h1, isTrue h2 => isTrue (by rw [h1, h2])
    | isFalse h1, _ => isFalse (by intro h; injection h; contradiction)
    | _, isFalse h2 => isFalse (by intro h; injection h; contradiction)
end

instance : DecidableEq MDListNode := MDListNode.decEq

def MDListNode.checkText : MDListNode → Option Char
  | .mk ct _ _ => ct

def MDListNode.text : MDListNode → String
  | .mk _ t _ => t

def MDListNode.children : MDListNode → List MDListNode
  | .mk _ _ cs => cs

/-- Embedding of the `MDListNode` constructor: the raw text is run through
`parseCheckBox`; on a match the marker is recorded and stripped. -/
def MDListNode.ofText (text : String) (children : List MDListNode := []) : MDListNode :=
  match parseCheckBox text with
  | some (c, rest) => .mk (some c) rest children
  | none => .mk none text children

/-- Embedding of `MDListRootNode`: `super(undefined, "ROOT", "ROOT")`. -/
def MDListRootNode : MDListNode := MDListNode.ofText "ROOT"

mutual
/-- Embedding of the inner helper `hasUncheckedRecurse` of
`MDListNode.isAllChecked` (`src/lib.ts`): scan the children first (an early
`true` wins), then report the node's own checkbox state (`none` when the
node carries no checkbox). -/
def hasUncheckedRecurse : MDListNode → Option Bool
  | .mk ct _ cs =>
    if hasUncheckedChildren cs then some true
    else match ct with
      | none => none
      | some c => some (c = CHECKBOX_UNDONE)

/-- The `for (const child of node.children)` loop of `hasUncheckedRecurse`
with its early `return true`. -/
def hasUncheckedChildren : List MDListNode → Bool
  | [] => false
  | c :: cs => (hasUncheckedRecurse c = some true) || hasUncheckedChildren cs
end

/-- Embedding of `MDListNode.isAllChecked` (`src/lib.ts`). -/
def MDListNode.isAllChecked (n : MDListNode) : Bool :=
  match hasUncheckedRecurse n with
  | some true => false
  | _ => n.checkText.isSome && n.checkText ≠ some CHECKBOX_UNDONE

mutual
/-- Specification-side helper: does the subtree rooted at `n` (including
`n` itself) contain a node whose checkbox marker is the undone marker? -/
def containsUndone : MDListNode → Bool
  | .mk ct _ cs => (ct = some CHECKBOX_UNDONE) || anyContainsUndone cs

def anyContainsUndone : List MDListNode → Bool
  | [] => false
  | c :: cs => containsUndone c || anyContainsUndone cs
end

/-- Specification-side helper: does some strict descendant of `n` carry an
undone checkbox? -/
def descendantUndone (n : MDListNode) : Bool :=
  anyContainsUndone n.children

mutual
/-- Nested induction principle for `MDListNode` (node part). -/
theorem MDListNode.nested_ind (P : MDListNode → Prop) (Q : List MDListNode → Prop)
    (hnil : Q []) (hcons : ∀ c cs, P c → Q cs → Q (c :: cs))
    (hmk : ∀ ct t cs, Q cs → P (.mk ct t cs)) : ∀ n, P n
  | .mk ct t cs => hmk ct t cs (MDListNode.nested_ind_list P Q hnil hcons hmk cs)

/-- Nested induction principle for `MDListNode` (children-list part). -/
theorem MDListNode.nested_ind_list (P : MDListNode → Prop) (Q : List MDListNode → Prop)
    (hnil : Q []) (hcons : ∀ c cs, P c → Q cs → Q (c :: cs))
    (hmk : ∀ ct t cs, Q cs → P (.mk ct t cs)) : ∀ l, Q l
  | [] => hnil
  | c :: cs =>
    hcons c cs (MDListNode.nested_ind P Q hnil hcons hmk c)
      (MDListNode.nested_ind_list P Q hnil hcons hmk cs)
end

/-- `hasUncheckedRecurse` answers `some true` exactly on subtrees holding an
undone checkbox (statement for nodes). -/
def UncheckedIffP (n : MDListNode) : Prop :=
  (hasUncheckedRecurse n = some true) ↔ containsUndone n = true

/-- `hasUncheckedRecurse` answers `some true` exactly on subtrees holding an
undone checkbox (statement for child lists). -/
def UncheckedIffQ (l : List MDListNode) : Prop :=
  hasUncheckedChildren l = anyContainsUndone l

theorem uncheckedIff_cons (c : MDListNode) (cs : List MDListNode)
    (hc : UncheckedIffP c) (hcs : UncheckedIffQ cs) : UncheckedIffQ (c :: cs) := by
  have hcs' : hasUncheckedChildren cs = anyContainsUndone cs := hcs
  simp only [UncheckedIffQ, hasUncheckedChildren, anyContainsUndone, hcs']
  by_cases h : containsUndone c = true
  · simp [h, hc.mpr h]
  · have hnr : ¬ (hasUncheckedRecurse c = some true) := fun hr => h (hc.mp hr)
    simp [h, hnr]

theorem uncheckedIff_mk (ct : Option Char) (t : String) (cs : List MDListNode)
    (hcs : UncheckedIffQ cs) : UncheckedIffP (.mk ct t cs) := by
  simp only [UncheckedIffP, UncheckedIffQ] at *
  simp only [hasUncheckedRecurse, containsUndone, hcs]
  by_cases h : anyContainsUndone cs = true
  · simp [h]
  · cases ct with
    | none => simp [h]
    | some c => simp [h]

theorem hasUncheckedRecurse_eq_true_iff (n : MDListNode) :
    (hasUncheckedRecurse n = some true) ↔ containsUndone n = true :=
  MDListNode.nested_ind UncheckedIffP UncheckedIffQ rfl uncheckedIff_cons uncheckedIff_mk n

theorem hasUncheckedChildren_eq (l : List MDListNode) :
    hasUncheckedChildren l = anyContainsUndone l :=
  MDListNode.nested_ind_list UncheckedIffP UncheckedIffQ rfl uncheckedIff_cons uncheckedIff_mk l

/-- C1: `isAllChecked` returns `false` whenever some descendant of the node
carries a checkbox marked undone (checkbox-less nodes are transparent to
the recursion); when no descendant is definitely unchecked, it returns
`true` iff the node's own checkbox is present and its marker is not a
single space — in particular a checkbox-less node with no unchecked
descendant (including a checkbox-less leaf) returns `false`. -/
theorem isAllChecked_spec (n : MDListNode) :
    (descendantUndone n = true → n.isAllChecked = false) ∧
    (descendantUndone n = false →
      (n.isAllChecked = true ↔
        n.checkText.isSome = true ∧ n.checkText ≠ some CHECKBOX_UNDONE)) := by
  obtain ⟨ct, t, cs⟩ := n
  constructor
  · intro h
    simp only [descendantUndone, MDListNode.children] at h
    have hcu : containsUndone (.mk ct t cs) = true := by
      simp [containsUndone, h]
    have hr := (hasUncheckedRecurse_eq_true_iff _).mpr hcu
    simp [MDListNode.isAllChecked, hr]
  · intro h
    simp only [descendantUndone, MDListNode.children] at h
    have hch : hasUncheckedChildren cs = false := by rw [hasUncheckedChildren_eq]; exact h
    simp only [MDListNode.isAllChecked, hasUncheckedRecurse, hch, Bool.false_eq_true,
      if_false, MDListNode.checkText]
    cases ct with
    | none => simp
    | some c =>
      by_cases hc : c = CHECKBOX_UNDONE
      · subst hc; simp
      · simp [hc]

/-- Witness for C1 at a concrete tree: a done-marked parent with an undone
grandchild behind a checkbox-less middle node is not all-checked. -/
theorem isAllChecked_spec_witness :
    descendantUndone (.mk (some 'x') "top"
      [.mk none "middle" [.mk (some ' ') "todo" []]]) = true ∧
    MDListNode.isAllChecked (.mk (some 'x') "top"
      [.mk none "middle" [.mk (some ' ') "todo" []]]) = false :=
  ⟨by decide,
   (isAllChecked_spec (.mk (some 'x') "top"
      [.mk none "middle" [.mk (some ' ') "todo" []]])).1 (by decide)⟩

/-! ## Indent-to-tree builder (`parseListHunkToTree`, `src/lib.ts`) -/

/-- Embedding of `MDListLine` (`src/lib.ts`, `SourceFile`-based version):
only the indentation width in raw characters and the content after the
bullet matter to any verified property. -/
structure MDListLine where
  indentCharLen : Nat
  content : String
deriving DecidableEq, Repr

/-- Embedding of `MDListLine.getIndentLevel` (`%` and `/` on `Int` are
euclidean here; all operands are nonnegative, where this agrees with the
JavaScript operators). -/
def MDListLine.getIndentLevel (l : MDListLine) (step : Int) : Option Int :=
  if (l.indentCharLen : Int) % step ≠ 0 then none
  else some ((l.indentCharLen : Int) / step)

/-- Embedding of `getMinimumIndentStep` (`src/lib.ts`): minimum positive
indent width over the hunk, defaulting to `2`, with the `-1` sentinel of
the source. -/
def minIndentFold (lines : List MDListLine) (init : Int) : Int :=
  lines.foldl
    (fun mn l =>
      if l.indentCharLen = 0 then mn
      else if mn = -1 ∨ (l.indentCharLen : Int) < mn then (l.indentCharLen : Int) else mn)
    init

def getMinimumIndentStep (lines : List MDListLine) : Int :=
  let m := minIndentFold lines (-1)
  if m = -1 then 2 else m

/-- The errors `parseError` can carry in `parseListHunkToTree` and
`MDListLine.create` (`src/lib.ts`). -/
inductive ParseErr where
  | notMDListLine (line : String)
  | malformedIndentation
  | indentJump (fromLevel toLevel : Int)
deriving DecidableEq, Repr

/-- `parent.children.push(h)`: append `h` as last child of `p`. -/
def appendChild (p h : MDListNode) : MDListNode :=
  match p with
  | .mk ct t cs => .mk ct t (cs ++ [h])

/-- Fold the deepest spine frame into its parent frame.  The spine lists
the ancestors of the most recent node, deepest first; folding realises the
`children.push` that the imperative code performed when the node was first
attached. -/
def foldTop : List MDListNode → List MDListNode
  | h :: p :: rest => appendChild p h :: rest
  | s => s

def popN : Nat → List MDListNode → List MDListNode
  | 0, s => s
  | n + 1, s => popN n (foldTop s)

/-- Fold the whole spine down to the root node. -/
def collapseSpine : List MDListNode → MDListNode
  | [] => MDListRootNode
  | x :: rest => rest.foldl (fun acc p => appendChild p acc) x

/-- The `for (const line of lines)` loop of `parseListHunkToTree`
(`src/lib.ts`): `lastNode` and its ancestor chain are carried as the spine
(deepest first), `lastIndentLevel` starts at `-1` for the sentinel root.
The three attachment branches of the source correspond to: sibling — fold
the finished `lastNode` into its parent and push; child — push on top of
`lastNode`; ancestor — fold `(lastIndentLevel - level) + 1` frames and
push. -/
def parseLoop (step : Int) : List MDListLine → List MDListNode → Int → Except ParseErr MDListNode
  | [], spine, _ => .ok (collapseSpine spine)
  | line :: rest, spine, lastLevel =>
    match line.getIndentLevel step with
    | none => .error .malformedIndentation
    | some lvl =>
      if lvl - lastLevel > 1 then .error (.indentJump lastLevel lvl)
      else
        let node := MDListNode.ofText line.content
        let spine' :=
          if lvl = lastLevel then node :: popN 1 spine
          else if lvl > lastLevel then node :: spine
          else node :: popN ((lastLevel - lvl).toNat + 1) spine
        parseLoop step rest spine' lvl

/-- Embedding of `parseListHunkToTree` (`src/lib.ts`, lines 710–747). -/
def parseListHunkToTree (lines : List MDListLine) : Except ParseErr MDListNode :=
  parseLoop (getMinimumIndentStep lines) lines [MDListRootNode] (-1)

/-- Specification-side helper: the first pair of consecutive levels
(starting from the sentinel `-1`) where the level increases by two or
more. -/
def firstJump : Int → List Int → Option (Int × Int)
  | _, [] => none
  | prev, l :: ls => if l - prev > 1 then some (prev, l) else firstJump l ls

/-- The indent levels of a hunk's lines at a given step. -/
def levelsAt (step : Int) (lines : List MDListLine) : List Int :=
  lines.map fun l => (l.indentCharLen : Int) / step

theorem parseLoop_firstJump (step : Int) :
    ∀ (lines : List MDListLine) (spine : List MDListNode) (lastLevel : Int),
      (∀ l ∈ lines, (l.indentCharLen : Int) % step = 0) →
      (∀ a b, firstJump lastLevel (levelsAt step lines) = some (a, b) →
        parseLoop step lines spine lastLevel = .error (.indentJump a b)) ∧
      (firstJump lastLevel (levelsAt step lines) = none →
        (parseLoop step lines spine lastLevel).isOk = true) := by
  intro lines
  induction lines with
  | nil => intro spine lastLevel _; exact ⟨fun a b h => by simp [firstJump, levelsAt] at h,
      fun _ => by simp [parseLoop, Except.isOk, Except.toBool]⟩
  | cons line rest ih =>
    intro spine lastLevel hdiv
    have hline : line.getIndentLevel step = some ((line.indentCharLen : Int) / step) := by
      simp [MDListLine.getIndentLevel, hdiv line (by simp)]
    have hrest : ∀ l ∈ rest, (l.indentCharLen : Int) % step = 0 :=
      fun l hl => hdiv l (by simp [hl])
    set lvl := (line.indentCharLen : Int) / step with hlvl
    by_cases hj : lvl - lastLevel > 1
    · refine ⟨fun a b h => ?_, fun h => ?_⟩
      · simp only [levelsAt, List.map_cons, firstJump, ← hlvl, if_pos hj,
          Option.some.injEq, Prod.mk.injEq] at h
        obtain ⟨ha, hb⟩ := h
        subst ha
        subst hb
        simp only [parseLoop, hline, if_pos hj]
      · exfalso
        simp only [levelsAt, List.map_cons, firstJump, ← hlvl, if_pos hj] at h
        exact Option.noConfusion h
    · refine ⟨fun a b h => ?_, fun h => ?_⟩
      · simp only [levelsAt, List.map_cons, firstJump, if_neg hj] at h
        simp only [parseLoop, hline, if_neg hj]
        exact (ih _ lvl hrest).1 a b h
      · simp only [levelsAt, List.map_cons, firstJump, if_neg hj] at h
        simp only [parseLoop, hline, if_neg hj]
        exact (ih _ lvl hrest).2 h

/-- C3: provided every line's raw indent is a multiple of the computed
step (so every line has a well-defined indent level), `parseListHunkToTree`
fails with the indent-jump error of the first line whose level exceeds the
previous line's level by two or more (the walk starting at level `-1` for
the sentinel root), and succeeds — hence never fails on account of a line
whose level exceeds the previous one by exactly one — when no such line
exists. -/
theorem parse_indentJump_spec (lines : List MDListLine)
    (hdiv : ∀ l ∈ lines, (l.indentCharLen : Int) % getMinimumIndentStep lines = 0) :
    (∀ a b, firstJump (-1) (levelsAt (getMinimumIndentStep lines) lines) = some (a, b) →
      parseListHunkToTree lines = .error (.indentJump a b)) ∧
    (firstJump (-1) (levelsAt (getMinimumIndentStep lines) lines) = none →
      (parseListHunkToTree lines).isOk = true) :=
  parseLoop_firstJump (getMinimumIndentStep lines) lines [MDListRootNode] (-1) hdiv

/-- Witness for C3: a single line indented by two characters gets level 1
under the computed step 2, a jump of two from the sentinel level `-1`, so
the parse fails with that indent jump; conversely a two-line hunk whose
level rises by exactly one parses successfully. -/
theorem parse_indentJump_spec_witness :
    (∀ l ∈ [MDListLine.mk 2 "a"],
      (l.indentCharLen : Int) % getMinimumIndentStep [MDListLine.mk 2 "a"] = 0) ∧
    parseListHunkToTree [MDListLine.mk 2 "a"] = .error (.indentJump (-1) 1) ∧
    (∀ l ∈ [MDListLine.mk 0 "a", MDListLine.mk 2 "b"],
      (l.indentCharLen : Int) %
        getMinimumIndentStep [MDListLine.mk 0 "a", MDListLine.mk 2 "b"] = 0) ∧
    (parseListHunkToTree [MDListLine.mk 0 "a", MDListLine.mk 2 "b"]).isOk = true :=
  ⟨by decide,
   (parse_indentJump_spec [MDListLine.mk 2 "a"] (by decide)).1 (-1) 1 (by decide),
   by decide,
   (parse_indentJump_spec [MDListLine.mk 0 "a", MDListLine.mk 2 "b"] (by decide)).2
     (by decide)⟩

/-! ## Indentation-style invariance (C2) -/

/-- The bare shape of a parsed tree: parent/child relations and sibling
order, with all text payload erased. -/
inductive Shape where
  | node (children : List Shape)
deriving Repr

mutual
def MDListNode.shape : MDListNode → Shape
  | .mk _ _ cs => .node (shapeList cs)

def shapeList : List MDListNode → List Shape
  | [] => []
  | c :: cs => MDListNode.shape c :: shapeList cs
end

/-- `foldTop` on the level of shapes. -/
def foldTopShape : List Shape → List Shape
  | h :: .node cs :: rest => .node (cs ++ [h]) :: rest
  | s => s

def popNShape : Nat → List Shape → List Shape
  | 0, s => s
  | n + 1, s => popNShape n (foldTopShape s)

def appendShapeChild (p h : Shape) : Shape :=
  match p with
  | .node cs => .node (cs ++ [h])

def collapseShape : List Shape → Shape
  | [] => .node []
  | x :: rest => rest.foldl (fun acc p => appendShapeChild p acc) x

theorem shapeList_append (a b : List MDListNode) :
    shapeList (a ++ b) = shapeList a ++ shapeList b := by
  induction a with
  | nil => rfl
  | cons c cs ih => simp [shapeList, ih]

theorem shape_appendChild (p h : MDListNode) :
    (appendChild p h).shape = .node (shapeList p.children ++ [h.shape]) := by
  obtain ⟨ct, t, cs⟩ := p
  simp [appendChild, MDListNode.shape, MDListNode.children, shapeList_append, shapeList]

theorem shapeList_foldTop (s : List MDListNode) :
    shapeList (foldTop s) = foldTopShape (shapeList s) := by
  match s with
  | [] => rfl
  | [x] => rfl
  | h :: p :: rest =>
    obtain ⟨ct, t, cs⟩ := p
    simp [foldTop, shapeList, MDListNode.shape, foldTopShape, shape_appendChild,
      appendChild, shapeList_append]

theorem shapeList_popN (n : Nat) (s : List MDListNode) :
    shapeList (popN n s) = popNShape n (shapeList s) := by
  induction n generalizing s with
  | zero => rfl
  | succ n ih => simp [popN, popNShape, ih, shapeList_foldTop]

theorem shape_ofText (t : String) : (MDListNode.ofText t).shape = .node [] := by
  unfold MDListNode.ofText
  cases parseCheckBox t with
  | none => rfl
  | some p => rfl

theorem shape_foldSpine (rest : List MDListNode) :
    ∀ x : MDListNode,
      (rest.foldl (fun acc p => appendChild p acc) x).shape =
        (shapeList rest).foldl (fun acc p => appendShapeChild p acc) x.shape := by
  induction rest with
  | nil => intro x; rfl
  | cons p rest ih =>
    intro x
    simp only [List.foldl_cons, shapeList, ih]
    congr 1
    rw [shape_appendChild]
    obtain ⟨ct, t, cs⟩ := p
    rfl

theorem shape_collapseSpine (s : List MDListNode) :
    (collapseSpine s).shape = collapseShape (shapeList s) := by
  cases s with
  | nil =>
    simp [collapseSpine, shapeList, collapseShape, MDListRootNode, shape_ofText]
  | cons x rest =>
    simp only [collapseSpine, shapeList, collapseShape]
    exact shape_foldSpine rest x

/-- Two runs of the builder loop over lines with identical level sequences
produce results of identical shape (text payload is free). -/
theorem parseLoop_shape (stepA stepB : Int) :
    ∀ (linesA linesB : List MDListLine) (spineA spineB : List MDListNode) (lastLevel : Int),
      linesA.map (·.getIndentLevel stepA) = linesB.map (·.getIndentLevel stepB) →
      shapeList spineA = shapeList spineB →
      (parseLoop stepA linesA spineA lastLevel).map MDListNode.shape =
        (parseLoop stepB linesB spineB lastLevel).map MDListNode.shape := by
  intro linesA
  induction linesA with
  | nil =>
    intro linesB spineA spineB lastLevel hmap hsp
    have : linesB = [] := by
      cases linesB with
      | nil => rfl
      | cons b bs => simp at hmap
    subst this
    simp only [parseLoop, Except.map]
    have h1 := shape_collapseSpine spineA
    have h2 := shape_collapseSpine spineB
    rw [h1, h2, hsp]
  | cons lineA restA ih =>
    intro linesB spineA spineB lastLevel hmap hsp
    cases linesB with
    | nil => simp at hmap
    | cons lineB restB =>
      simp only [List.map_cons, List.cons.injEq] at hmap
      obtain ⟨hhead, htail⟩ := hmap
      simp only [parseLoop, ← hhead]
      cases hA : lineA.getIndentLevel stepA with
      | none => simp [Except.map]
      | some lvl =>
        by_cases hj : lvl - lastLevel > 1
        · simp [if_pos hj, Except.map]
        · simp only [if_neg hj]
          apply ih _ _ _ _ htail
          by_cases he : lvl = lastLevel
          · simp only [if_pos he]
            simp [shapeList, shape_ofText, shapeList_popN, hsp]
          · simp only [if_neg he]
            by_cases hg : lvl > lastLevel
            · simp [if_pos hg, shapeList, shape_ofText, hsp]
            · simp [if_neg hg, shapeList, shape_ofText, shapeList_popN, hsp]

/-- Hunks that indent level `l` by `w` raw characters per level: line `i`
carries indent `w * ls[i]` and content `cs[i]`. -/
def mkLines (w : Nat) (ls : List Nat) (cs : List String) : List MDListLine :=
  List.zipWith (fun l c => MDListLine.mk (w * l) c) ls cs

/-- `getMinimumIndentStep`'s fold on the underlying level sequence. -/
def minPosFold (ls : List Nat) (init : Int) : Int :=
  ls.foldl
    (fun (mn : Int) (l : Nat) =>
      if l = 0 then mn else if mn = -1 ∨ (l : Int) < mn then (l : Int) else mn)
    init

theorem minPosFold_cons (l : Nat) (ls : List Nat) (init : Int) :
    minPosFold (l :: ls) init
      = minPosFold ls (if l = 0 then init
          else if init = -1 ∨ (l : Int) < init then (l : Int) else init) := rfl

theorem minPosFold_pos (ls : List Nat) :
    ∀ init : Int, init = -1 ∨ 0 < init → minPosFold ls init = -1 ∨ 0 < minPosFold ls init := by
  induction ls with
  | nil => intro init h; exact h
  | cons l ls ih =>
    intro init h
    rw [minPosFold_cons]
    refine ih _ ?_
    by_cases h0 : l = 0
    · simpa [h0] using h
    · by_cases hc : init = -1 ∨ (l : Int) < init
      · right
        rw [if_neg h0, if_pos hc]
        exact_mod_cast Nat.pos_of_ne_zero h0
      · rw [if_neg h0, if_neg hc]
        exact h

theorem minPosFold_eq_neg_one (ls : List Nat) :
    ∀ init : Int, init = -1 ∨ 0 < init →
      minPosFold ls init = -1 → init = -1 ∧ ∀ l ∈ ls, l = 0 := by
  induction ls with
  | nil => intro init h hm; exact ⟨hm, by simp⟩
  | cons l ls ih =>
    intro init h hm
    rw [minPosFold_cons] at hm
    by_cases h0 : l = 0
    · rw [if_pos h0] at hm
      obtain ⟨hi, hrest⟩ := ih init h hm
      refine ⟨hi, ?_⟩
      intro x hx
      rcases List.mem_cons.mp hx with hx | hx
      · rw [hx]; exact h0
      · exact hrest x hx
    · rw [if_neg h0] at hm
      by_cases hc : init = -1 ∨ (l : Int) < init
      · rw [if_pos hc] at hm
        have hpos : (0 : Int) < (l : Int) := by exact_mod_cast Nat.pos_of_ne_zero h0
        obtain ⟨hi, _⟩ := ih _ (Or.inr hpos) hm
        omega
      · rw [if_neg hc] at hm
        obtain ⟨hi, _⟩ := ih init h hm
        subst hi
        exact absurd (Or.inl rfl) hc

/-- The sentinel-aware scaling of an accumulator value. -/
def scaleAcc (w : Nat) (a : Int) : Int := if a = -1 then -1 else w * a

theorem minIndentFold_scaled (w : Nat) (hw : 0 < w) (ls : List Nat) :
    ∀ (cs : List String) (acc : Int), cs.length = ls.length → acc = -1 ∨ 0 < acc →
      minIndentFold (mkLines w ls cs) (scaleAcc w acc) = scaleAcc w (minPosFold ls acc) := by
  induction ls with
  | nil =>
    intro cs acc hlen _
    have : cs = [] := List.length_eq_zero.mp hlen
    subst this
    rfl
  | cons l ls ih =>
    intro cs acc hlen hacc
    cases cs with
    | nil => simp at hlen
    | cons c cs =>
      simp only [List.length_cons, Nat.succ.injEq] at hlen
      simp only [mkLines, List.zipWith_cons_cons, minIndentFold, List.foldl_cons, minPosFold]
      by_cases h0 : l = 0
      · have hz : w * l = 0 := by rw [h0]; ring
        simp only [h0, hz, if_pos rfl, if_pos rfl]
        exact ih cs acc hlen hacc
      · have hnz : ¬ w * l = 0 := by
          intro h; rcases Nat.mul_eq_zero.mp h with h | h <;> omega
        simp only [if_neg h0, if_neg hnz]
        have hwz : (0 : Int) < (w : Int) := by exact_mod_cast hw
        have hcond : (scaleAcc w acc = -1 ∨ ((w * l : Nat) : Int) < scaleAcc w acc) ↔
            (acc = -1 ∨ (l : Int) < acc) := by
          unfold scaleAcc
          rcases hacc with h | h
          · simp [h]
          · have hne : acc ≠ -1 := by omega
            have hmulpos : (0 : Int) < (w : Int) * acc := mul_pos hwz h
            simp only [if_neg hne]
            constructor
            · rintro (hc | hc)
              · omega
              · refine Or.inr ?_
                have hml : ((w : Int)) * (l : Int) < (w : Int) * acc := by
                  push_cast at hc; linarith
                exact lt_of_mul_lt_mul_left hml (by positivity)
            · rintro (hc | hc)
              · exact absurd hc hne
              · refine Or.inr ?_
                push_cast
                exact (mul_lt_mul_left hwz).mpr hc
        by_cases hc : acc = -1 ∨ (l : Int) < acc
        · rw [if_pos (hcond.mpr hc), if_pos hc]
          have hlp : (0 : Int) < (l : Int) := by exact_mod_cast Nat.pos_of_ne_zero h0
          have : ((w * l : Nat) : Int) = scaleAcc w (l : Int) := by
            unfold scaleAcc
            rw [if_neg (by omega)]
            push_cast
            ring
          rw [this]
          exact ih cs (l : Int) hlen (Or.inr hlp)
        · rw [if_neg (fun h => hc (hcond.mp h)), if_neg hc]
          exact ih cs acc hlen hacc

/-- The indent step the code computes for the unscaled level sequence. -/
def baseStep (ls : List Nat) : Int :=
  if minPosFold ls (-1) = -1 then 2 else minPosFold ls (-1)

theorem getMinimumIndentStep_scaled (w : Nat) (hw : 0 < w) (ls : List Nat)
    (cs : List String) (hlen : cs.length = ls.length) :
    getMinimumIndentStep (mkLines w ls cs) =
      if minPosFold ls (-1) = -1 then 2 else (w : Int) * minPosFold ls (-1) := by
  have h := minIndentFold_scaled w hw ls cs (-1) hlen (Or.inl rfl)
  have hsc : scaleAcc w (-1) = -1 := by simp [scaleAcc]
  rw [hsc] at h
  unfold getMinimumIndentStep
  rw [h]
  unfold scaleAcc
  by_cases hm : minPosFold ls (-1) = -1
  · simp [hm]
  · rcases minPosFold_pos ls (-1) (Or.inl rfl) with h1 | h1
    · exact absurd h1 hm
    · have hwz : (0 : Int) < (w : Int) := by exact_mod_cast hw
      have hmp : (0 : Int) < (w : Int) * minPosFold ls (-1) := mul_pos hwz h1
      rw [if_neg hm, if_neg hm, if_neg (by omega)]

theorem map_getIndentLevel_mkLines (w : Nat) (ls : List Nat) (step : Int) :
    ∀ cs : List String, cs.length = ls.length →
      (mkLines w ls cs).map (·.getIndentLevel step)
        = ls.map (fun l => (MDListLine.mk (w * l) "").getIndentLevel step) := by
  induction ls with
  | nil =>
    intro cs hlen
    have : cs = [] := List.length_eq_zero.mp hlen
    subst this
    rfl
  | cons l ls ih =>
    intro cs hlen
    cases cs with
    | nil => simp at hlen
    | cons c cs =>
      simp only [List.length_cons, Nat.succ.injEq] at hlen
      simp only [mkLines, List.zipWith_cons_cons, List.map_cons]
      refine congrArg₂ _ rfl ?_
      exact ih cs hlen

theorem getIndentLevel_scaled (w : Nat) (hw : 0 < w) (l : Nat) (m : Int) :
    (MDListLine.mk (w * l) "").getIndentLevel ((w : Int) * m)
      = (MDListLine.mk l "").getIndentLevel m := by
  have hwz : (0 : Int) < (w : Int) := by exact_mod_cast hw
  unfold MDListLine.getIndentLevel
  have hcast : ((w * l : Nat) : Int) = (w : Int) * (l : Int) := by push_cast; ring
  simp only [hcast, Int.mul_emod_mul_of_pos _ _ hwz, Int.mul_ediv_mul_of_pos _ _ hwz]
  have hzero : (w : Int) * ((l : Int) % m) = 0 ↔ (l : Int) % m = 0 := by
    constructor
    · intro h
      rcases mul_eq_zero.mp h with h | h
      · exact absurd h (by omega)
      · exact h
    · intro h; rw [h]; ring
  by_cases h0 : (l : Int) % m = 0
  · rw [if_neg (by simp [hzero.mpr h0]), if_neg (by simp [h0])]
  · rw [if_pos (by simpa [hzero] using h0), if_pos h0]

/-- C2: two hunks whose lines are pairwise structurally equivalent — line
`i` sits at level `ls[i]`, indented with a uniform positive per-level
width (`wA` resp. `wB` raw characters per level, covering 2-space, 4-space
and tab styles) — parse to structurally identical trees: same shape, same
parent/child relations and the same node order, the literal text payload
(`csA` vs `csB`) being free; failures coincide as well. -/
theorem parse_indent_style_invariance (ls : List Nat) (csA csB : List String)
    (wA wB : Nat) (hwA : 0 < wA) (hwB : 0 < wB)
    (hA : csA.length = ls.length) (hB : csB.length = ls.length) :
    (parseListHunkToTree (mkLines wA ls csA)).map MDListNode.shape
      = (parseListHunkToTree (mkLines wB ls csB)).map MDListNode.shape := by
  unfold parseListHunkToTree
  apply parseLoop_shape
  · rw [getMinimumIndentStep_scaled wA hwA ls csA hA,
      getMinimumIndentStep_scaled wB hwB ls csB hB,
      map_getIndentLevel_mkLines wA ls _ csA hA,
      map_getIndentLevel_mkLines wB ls _ csB hB]
    by_cases hm : minPosFold ls (-1) = -1
    · simp only [if_pos hm]
      obtain ⟨-, hz⟩ := minPosFold_eq_neg_one ls (-1) (Or.inl rfl) hm
      apply List.map_congr_left
      intro l hl
      rw [hz l hl]
      norm_num
    · simp only [if_neg hm]
      apply List.map_congr_left
      intro l hl
      rw [getIndentLevel_scaled wA hwA l _, getIndentLevel_scaled wB hwB l _]
  · rfl

/-- Witness for C2: the two-space and tab-indented versions of the same
two-level hunk parse to trees of identical shape. -/
theorem parse_indent_style_invariance_witness :
    0 < 2 ∧ 0 < 1 ∧
    (parseListHunkToTree (mkLines 2 [0, 1] ["a", "b"])).map MDListNode.shape
      = (parseListHunkToTree (mkLines 1 [0, 1] ["c", "d"])).map MDListNode.shape :=
  ⟨by decide, by decide,
   parse_indent_style_invariance [0, 1] ["a", "b"] ["c", "d"] 2 1
     (by decide) (by decide) (by decide) (by decide)⟩

/-! ## Calendar model (`src/datetime.ts` and the JavaScript `Date`)

`YMD.toDate()` builds `new Date(year, month - 1, day)` and the code then
reads either its epoch time (`toEpochDate`) or its civil fields
(`YMD.fromDate`).  A JavaScript `Date` holding a local midnight is modelled
by its proleptic-Gregorian day number at a fixed zero UTC offset.  The
`Date` constructor applies the legacy two-digit-year adjustment: a year
argument between 0 and 99 inclusive gets 1900 added before the month/day
normalisation (`dayNumber` models this); reading fields back
(`Date.getFullYear` etc., modelled by `civilFromDays`) performs no such
adjustment.  (`moment`'s own `createDate` works around the adjustment with
`setFullYear`, so parsed `YMD`s keep their literal 0–99 years.)
`daysFromCivil` is the standard era/year-of-era day-number computation;
`civilFromDays` is its inverse (with an estimate-and-correct year-of-era
search), certified below by `civil_roundtrip`. -/

/-- Day number of the civil date `(y, m, d)` relative to 1970-01-01, for
`m` between 1 and 12 (`d` may be out of range; days are simply added). -/
def daysFromCivil (y m d : Int) : Int :=
  let y1 := if m ≤ 2 then y - 1 else y
  let era := y1 / 400
  let yoe := y1 - era * 400
  let mp := (m + 9) % 12
  let doy := (153 * mp + 2) / 5 + d - 1
  let doe := yoe * 365 + yoe / 4 - yoe / 100 + doy
  era * 146097 + doe - 719468

/-- Day number of `new Date(y, m - 1, d)`: the month is first normalised
into the year (as the `Date` constructor does), then out-of-range days
carry over as day arithmetic. -/
def dateDays (y m d : Int) : Int :=
  let ny := y + (m - 1) / 12
  let nm := (m - 1) % 12 + 1
  daysFromCivil ny nm 1 + (d - 1)

/-- Embedding of `YMD` (`src/datetime.ts`): year / month (1–12 nominally) /
day, without any validity requirement. -/
structure YMD where
  year : Int
  month : Int
  day : Int
deriving DecidableEq, Repr

/-- The day number of the civil date stored in the fields of `t`, without
the `Date` constructor's two-digit-year adjustment: the calendar-day
reading of a `YMD`. -/
def civilDayNumber (t : YMD) : Int := dateDays t.year t.month t.day

/-- The day number of `date.toDate()`; at a fixed zero offset,
`Math.floor(getTime() / 86400000)` is exactly the day number.  The `Date`
constructor first replaces a year between 0 and 99 inclusive by that year
plus 1900. -/
def dayNumber (t : YMD) : Int :=
  dateDays (if 0 ≤ t.year ∧ t.year ≤ 99 then t.year + 1900 else t.year) t.month t.day

/-- Embedding of `toEpochDate` (`src/datetime.ts`). -/
def toEpochDate (date : YMD) : Int := dayNumber date

/-- Outside the two-digit window the adjustment is the identity. -/
theorem dayNumber_eq_civil (t : YMD) (h : ¬ (0 ≤ t.year ∧ t.year ≤ 99)) :
    dayNumber t = civilDayNumber t := by
  unfold dayNumber civilDayNumber
  rw [if_neg h]

/-- Civil fields of the `Date` holding day number `z`; the embedding of
`YMD.fromDate` applied to such a `Date`. -/
def civilFromDays (z : Int) : YMD :=
  let z' := z + 719468
  let era := z' / 146097
  let doe := z' - era * 146097
  if doe = 146096 then ⟨era * 400 + 400, 2, 29⟩ else
  let approx := doe / 365
  let yoe := if 365 * approx + approx / 4 - approx / 100 ≤ doe then approx else approx - 1
  let y := yoe + era * 400
  let doy := doe - (365 * yoe + yoe / 4 - yoe / 100)
  let mp := (5 * doy + 2) / 153
  let d := doy - (153 * mp + 2) / 5 + 1
  let m := mp + (if mp < 10 then 3 else -9)
  ⟨if m ≤ 2 then y + 1 else y, m, d⟩

theorem dateDays_eq (y m d : Int) (h1 : 1 ≤ m) (h2 : m ≤ 12) :
    dateDays y m d = daysFromCivil y m 1 + (d - 1) := by
  unfold dateDays
  dsimp only
  have e1 : (m - 1) / 12 = 0 := by omega
  have e2 : (m - 1) % 12 + 1 = m := by omega
  rw [e1, e2, add_zero]

theorem daysFromCivil_era (era yoe mp dd : Int) (h1 : 0 ≤ yoe) (h2 : yoe ≤ 399)
    (h3 : 0 ≤ mp) (h4 : mp ≤ 11) :
    daysFromCivil (if mp < 10 then yoe + era * 400 else yoe + era * 400 + 1)
      (mp + (if mp < 10 then 3 else -9)) dd
      = era * 146097 + (yoe * 365 + yoe / 4 - yoe / 100 + (153 * mp + 2) / 5 + dd - 1)
        - 719468 := by
  unfold daysFromCivil
  dsimp only
  by_cases h : mp < 10
  · rw [if_pos h, if_pos h, if_neg (by omega : ¬ mp + 3 ≤ 2)]
    have e1 : (yoe + era * 400) / 400 = era := by omega
    rw [e1]
    have e2 : yoe + era * 400 - era * 400 = yoe := by ring
    rw [e2]
    have e3 : (mp + 3 + 9) % 12 = mp := by omega
    rw [e3]
    ring
  · rw [if_neg h, if_neg h, if_pos (by omega : mp + -9 ≤ 2)]
    have e0 : yoe + era * 400 + 1 - 1 = yoe + era * 400 := by ring
    rw [e0]
    have e1 : (yoe + era * 400) / 400 = era := by omega
    rw [e1]
    have e2 : yoe + era * 400 - era * 400 = yoe := by ring
    rw [e2]
    have e3 : (mp + -9 + 9) % 12 = mp := by omega
    rw [e3]
    ring

theorem roundtrip_core (z z' era doe approx yoe y doy mp d m : Int)
    (hz' : z' = z + 719468)
    (hera : era = z' / 146097)
    (hdoe : doe = z' - era * 146097)
    (hne : ¬ doe = 146096)
    (happrox : approx = doe / 365)
    (hyoe : yoe = if 365 * approx + approx / 4 - approx / 100 ≤ doe then approx
      else approx - 1)
    (hy : y = yoe + era * 400)
    (hdoy : doy = doe - (365 * yoe + yoe / 4 - yoe / 100))
    (hmp : mp = (5 * doy + 2) / 153)
    (hd : d = doy - (153 * mp + 2) / 5 + 1)
    (hm : m = mp + (if mp < 10 then 3 else -9)) :
    dateDays (if m ≤ 2 then y + 1 else y) m d = z ∧
    1 ≤ m ∧ m ≤ 12 ∧ 1 ≤ d ∧ d ≤ 31 := by
  have hdoeb : 0 ≤ doe ∧ doe ≤ 146095 := by clear hy hmp hd hm hdoy hyoe; omega
  have ha1 : 365 * approx ≤ doe ∧ doe ≤ 365 * approx + 364 := by
    clear hy hmp hd hm hdoy hyoe; omega
  have ha2 : 0 ≤ approx ∧ approx ≤ 400 := by clear hy hmp hd hm hdoy hyoe; omega
  have ha3 : approx / 4 ≤ 100 ∧ 0 ≤ approx / 4 ∧ approx / 100 ≤ 4 ∧ 0 ≤ approx / 100 := by
    clear hy hmp hd hm hdoy hyoe; omega
  have hb : 0 ≤ yoe ∧ yoe ≤ 399 := by
    clear hy hmp hd hm hdoy; split_ifs at hyoe <;> omega
  have ha4 : yoe / 4 ≤ 99 ∧ 0 ≤ yoe / 4 ∧ yoe / 100 ≤ 3 ∧ 0 ≤ yoe / 100 := by
    clear hy hmp hd hm hdoy; omega
  have hdoyb : 0 ≤ doy ∧ doy ≤ 365 := by
    clear hy hmp hd hm; split_ifs at hyoe <;> omega
  have hmpb : 0 ≤ mp ∧ mp ≤ 11 := by clear hy hm hd; omega
  have hdb : 1 ≤ d ∧ d ≤ 31 := by clear hy hm; omega
  have hm12 : 1 ≤ m ∧ m ≤ 12 := by clear hy hd hdoy; split_ifs at hm <;> omega
  refine ⟨?_, hm12.1, hm12.2, hdb.1, hdb.2⟩
  rw [dateDays_eq _ _ _ hm12.1 hm12.2]
  have hiy : (if m ≤ 2 then y + 1 else y)
      = (if mp < 10 then yoe + era * 400 else yoe + era * 400 + 1) := by
    subst hy
    split_ifs at hm ⊢ <;> omega
  rw [hiy, hm, daysFromCivil_era era yoe mp 1 hb.1 hb.2 hmpb.1 hmpb.2]
  clear hy hiy hm hm12
  omega

/-- `civilFromDays` is a right inverse of the civil day-number
computation, and its month and day fields are in range: it extracts the
correct civil date of any day number. -/
theorem civil_roundtrip (z : Int) :
    civilDayNumber (civilFromDays z) = z ∧
    1 ≤ (civilFromDays z).month ∧ (civilFromDays z).month ≤ 12 ∧
    1 ≤ (civilFromDays z).day ∧ (civilFromDays z).day ≤ 31 := by
  unfold civilFromDays
  dsimp only
  by_cases hne : z + 719468 - (z + 719468) / 146097 * 146097 = 146096
  · rw [if_pos hne]
    unfold civilDayNumber
    dsimp only
    rw [dateDays_eq _ _ _ (by omega) (by omega)]
    unfold daysFromCivil
    dsimp only
    rw [if_pos (by omega : (2 : Int) ≤ 2)]
    have e1 : ((z + 719468) / 146097 * 400 + 400 - 1) / 400 = (z + 719468) / 146097 := by
      omega
    rw [e1]
    refine ⟨by omega, by omega, by omega, by omega, by omega⟩
  · rw [if_neg hne]
    have hcore := roundtrip_core z (z + 719468) ((z + 719468) / 146097)
      (z + 719468 - (z + 719468) / 146097 * 146097) _ _ _ _ _ _ _
      rfl rfl rfl hne rfl rfl rfl rfl rfl rfl rfl
    unfold civilDayNumber
    dsimp only
    exact hcore

/-- Proleptic-Gregorian leap year. -/
def IsLeap (y : Int) : Prop := (y % 4 = 0 ∧ ¬ y % 100 = 0) ∨ y % 400 = 0

instance (y : Int) : Decidable (IsLeap y) := by unfold IsLeap; infer_instance

/-- Length of month `m` of year `y` (for `m` between 1 and 12). -/
def daysInMonth (y m : Int) : Int :=
  if m = 2 then (if IsLeap y then 29 else 28)
  else if m = 4 ∨ m = 6 ∨ m = 9 ∨ m = 11 then 30 else 31

/-- A `YMD` holding an in-range civil date. -/
def ValidYMD (t : YMD) : Prop :=
  1 ≤ t.month ∧ t.month ≤ 12 ∧ 1 ≤ t.day ∧ t.day ≤ daysInMonth t.year t.month

instance (t : YMD) : Decidable (ValidYMD t) := by unfold ValidYMD; infer_instance

theorem daysFromCivil_day (y m d : Int) :
    daysFromCivil y m d = daysFromCivil y m 1 + (d - 1) := by
  unfold daysFromCivil
  dsimp only
  split_ifs <;> ring

theorem daysFromCivil_succ_month (y m : Int) (h1 : 1 ≤ m) (h2 : m ≤ 11) :
    daysFromCivil y m 1 + daysInMonth y m = daysFromCivil y (m + 1) 1 := by
  interval_cases m <;>
    (unfold daysFromCivil daysInMonth IsLeap; dsimp only; norm_num;
     first
     | (split_ifs <;> omega)
     | omega)

theorem daysFromCivil_succ_year (y : Int) :
    daysFromCivil y 12 31 + 1 = daysFromCivil (y + 1) 1 1 := by
  unfold daysFromCivil
  dsimp only
  norm_num
  omega

theorem monthStart_le (y m1 : Int) (hm : 1 ≤ m1) :
    ∀ m2, m1 ≤ m2 → m2 ≤ 12 → daysFromCivil y m1 1 ≤ daysFromCivil y m2 1 := by
  intro m2 hle
  refine @Int.le_induction
    (fun n => n ≤ 12 → daysFromCivil y m1 1 ≤ daysFromCivil y n 1) m1 ?_ ?_ m2 hle
  · intro _
    exact le_refl _
  · intro n hn ih h12
    have hrec := ih (by omega)
    have hstep := daysFromCivil_succ_month y n (by omega) (by omega)
    have hdim : 28 ≤ daysInMonth y n := by
      unfold daysInMonth; split_ifs <;> omega
    omega

theorem yearStart_le (y1 : Int) :
    ∀ y2, y1 ≤ y2 → daysFromCivil y1 1 1 ≤ daysFromCivil y2 1 1 := by
  intro y2 hle
  refine @Int.le_induction
    (fun n => daysFromCivil y1 1 1 ≤ daysFromCivil n 1 1) y1 ?_ ?_ y2 hle
  · exact le_refl _
  · intro n hn ih
    have h1 : daysFromCivil n 1 1 ≤ daysFromCivil n 12 1 :=
      monthStart_le n 1 (by omega) 12 (by omega) (by omega)
    have h2 := daysFromCivil_day n 12 31
    have h3 := daysFromCivil_succ_year n
    omega

/-- Last day of the year bounds every valid date of the year. -/
theorem le_year_end (y m d : Int) (h1 : 1 ≤ m) (h2 : m ≤ 12) (h4 : d ≤ 31) :
    daysFromCivil y m d ≤ daysFromCivil y 12 31 := by
  have ha := daysFromCivil_day y m d
  have hb := daysFromCivil_day y 12 31
  have hc := monthStart_le y m h1 12 h2 (by omega)
  omega

/-- The civil day number is strictly monotone in the lexicographic field
order on valid dates. -/
theorem civilDayNumber_lt_of_lex (a b : YMD) (ha : ValidYMD a) (hb : ValidYMD b)
    (hlex : a.year < b.year ∨ (a.year = b.year ∧
      (a.month < b.month ∨ (a.month = b.month ∧ a.day < b.day)))) :
    civilDayNumber a < civilDayNumber b := by
  obtain ⟨ya, ma, da⟩ := a
  obtain ⟨yb, mb, db⟩ := b
  simp only [ValidYMD] at ha hb
  simp only at hlex
  obtain ⟨ham1, ham2, had1, had2⟩ := ha
  obtain ⟨hbm1, hbm2, hbd1, hbd2⟩ := hb
  have hda : civilDayNumber ⟨ya, ma, da⟩ = daysFromCivil ya ma 1 + (da - 1) := by
    unfold civilDayNumber
    dsimp only
    rw [dateDays_eq _ _ _ ham1 ham2]
  have hdb : civilDayNumber ⟨yb, mb, db⟩ = daysFromCivil yb mb 1 + (db - 1) := by
    unfold civilDayNumber
    dsimp only
    rw [dateDays_eq _ _ _ hbm1 hbm2]
  have hdima : 28 ≤ daysInMonth ya ma ∧ daysInMonth ya ma ≤ 31 := by
    unfold daysInMonth; split_ifs <;> omega
  rcases hlex with hy | ⟨hy, hm | ⟨hm, hd⟩⟩
  · -- strictly earlier year
    have h1 : daysFromCivil ya ma da ≤ daysFromCivil ya 12 31 :=
      le_year_end ya ma da ham1 ham2 (by omega)
    have h2 := daysFromCivil_succ_year ya
    have h3 := yearStart_le (ya + 1) yb (by omega)
    have h4 : daysFromCivil yb 1 1 ≤ daysFromCivil yb mb 1 :=
      monthStart_le yb 1 (by omega) mb hbm1 hbm2
    have h5 := daysFromCivil_day ya ma da
    omega
  · -- same year, strictly earlier month
    subst hy
    have h1 := daysFromCivil_succ_month ya ma ham1 (by omega)
    have h2 : daysFromCivil ya (ma + 1) 1 ≤ daysFromCivil ya mb 1 :=
      monthStart_le ya (ma + 1) (by omega) mb (by omega) hbm2
    omega
  · -- same year and month, strictly earlier day
    subst hy
    subst hm
    omega

/-- Embedding of `YMD.compare` (`src/datetime.ts`): year difference if
nonzero, else month difference if nonzero, else day difference. -/
def YMD.compare (a b : YMD) : Int :=
  if a.year - b.year ≠ 0 then a.year - b.year
  else if a.month - b.month ≠ 0 then a.month - b.month
  else a.day - b.day

/-- Embedding of `YMD.equals` (`src/datetime.ts`): structural equality of
the three fields. -/
def YMD.equals (a b : YMD) : Bool :=
  a.year = b.year && a.month = b.month && a.day = b.day

/-- Embedding of `YMD.earlierThan`. -/
def YMD.earlierThan (a b : YMD) : Bool := a.compare b < 0

/-- Embedding of `YMD.laterThan`. -/
def YMD.laterThan (a b : YMD) : Bool := 0 < a.compare b

/-- Embedding of `DateRange` (`src/datetime.ts`); the source field names
`from`/`to` are Lean keywords and are rendered `from'`/`to'`. -/
structure DateRange where
  from' : YMD
  to' : YMD
deriving DecidableEq, Repr

/-- Embedding of the `DateRange` constructor, which throws exactly when
`toEpochDate(from) > toEpochDate(to)`. -/
def DateRange.make (f t : YMD) : Option DateRange :=
  if toEpochDate t < toEpochDate f then none else some ⟨f, t⟩

theorem compare_pos_iff (a b : YMD) :
    0 < a.compare b ↔ (b.year < a.year ∨ (b.year = a.year ∧
      (b.month < a.month ∨ (b.month = a.month ∧ b.day < a.day)))) := by
  unfold YMD.compare
  split_ifs <;> omega

theorem civilDayNumber_lt_iff (a b : YMD) (ha : ValidYMD a) (hb : ValidYMD b) :
    civilDayNumber a < civilDayNumber b ↔ (a.year < b.year ∨ (a.year = b.year ∧
      (a.month < b.month ∨ (a.month = b.month ∧ a.day < b.day)))) := by
  constructor
  · intro h
    by_contra hn
    have htri : (a.year = b.year ∧ a.month = b.month ∧ a.day = b.day) ∨
        (b.year < a.year ∨ (b.year = a.year ∧
          (b.month < a.month ∨ (b.month = a.month ∧ b.day < a.day)))) := by
      omega
    rcases htri with ⟨h1, h2, h3⟩ | hgt
    · obtain ⟨ya, ma, da⟩ := a
      obtain ⟨yb, mb, db⟩ := b
      simp only at h1 h2 h3
      subst h1; subst h2; subst h3
      omega
    · have := civilDayNumber_lt_of_lex b a hb ha hgt
      omega
  · exact civilDayNumber_lt_of_lex a b ha hb

/-- C8 (amended): `DateRange` construction fails exactly when
`toEpochDate(from) > toEpochDate(to)`, where `toEpochDate` goes through
the `Date` constructor and hence maps years 0–99 to 1900–1999; it never
fails when the two endpoints are equal, and on success the constructed
range satisfies `from ≤ to` in the same epoch-day order.  For valid civil
dates whose years both lie outside the remapped window this coincides
with the original claim: construction fails exactly when `from` is
strictly later than `to` as a calendar day (the lexicographic
`YMD.compare`). -/
theorem dateRange_make_spec (a b : YMD) :
    (DateRange.make a b = none ↔ toEpochDate b < toEpochDate a) ∧
    DateRange.make a a ≠ none ∧
    (∀ r, DateRange.make a b = some r → toEpochDate r.from' ≤ toEpochDate r.to') ∧
    (ValidYMD a → ValidYMD b →
      ¬ (0 ≤ a.year ∧ a.year ≤ 99) → ¬ (0 ≤ b.year ∧ b.year ≤ 99) →
      (DateRange.make a b = none ↔ 0 < a.compare b)) := by
  refine ⟨?_, ?_, ?_, ?_⟩
  · unfold DateRange.make
    split_ifs with h
    · simp [h]
    · simp [h]
  · unfold DateRange.make
    rw [if_neg (by omega)]
    simp
  · intro r hr
    unfold DateRange.make at hr
    split_ifs at hr with h
    · obtain rfl : (⟨a, b⟩ : DateRange) = r := by simpa using hr
      unfold toEpochDate at h ⊢
      dsimp only
      omega
  · intro ha hb hya hyb
    unfold DateRange.make
    have hiff := (civilDayNumber_lt_iff b a hb ha).trans (compare_pos_iff a b).symm
    unfold toEpochDate
    rw [dayNumber_eq_civil a hya, dayNumber_eq_civil b hyb]
    split_ifs with h
    · simp only [true_iff]
      exact hiff.mp h
    · simp only [false_iff]
      intro hc
      exact h (hiff.mpr hc)

/-- C8 counterexample: `new DateRange(YMD(99,1,1), YMD(100,1,1))` throws
in the code, because the `Date` constructor remaps the year 99 to 1999 and
`toEpochDate` then compares 1999-01-01 against 0100-01-01 — although
0099-01-01 is the strictly earlier calendar day (both dates valid). -/
theorem dateRange_make_counterexample :
    ValidYMD ⟨99, 1, 1⟩ ∧ ValidYMD ⟨100, 1, 1⟩ ∧
    YMD.compare ⟨99, 1, 1⟩ ⟨100, 1, 1⟩ < 0 ∧
    civilDayNumber ⟨99, 1, 1⟩ < civilDayNumber ⟨100, 1, 1⟩ ∧
    DateRange.make ⟨99, 1, 1⟩ ⟨100, 1, 1⟩ = none :=
  ⟨by decide, by decide, by decide, by decide, by decide⟩

/-- Witness for C8: the reversed week range 2025/03/09–2025/03/03 is
rejected, matching the positive lexicographic comparison. -/
theorem dateRange_make_spec_witness :
    ValidYMD ⟨2025, 3, 9⟩ ∧ ValidYMD ⟨2025, 3, 3⟩ ∧
    (DateRange.make ⟨2025, 3, 9⟩ ⟨2025, 3, 3⟩ = none ↔
      0 < YMD.compare ⟨2025, 3, 9⟩ ⟨2025, 3, 3⟩) :=
  ⟨by decide, by decide,
   (dateRange_make_spec ⟨2025, 3, 9⟩ ⟨2025, 3, 3⟩).2.2.2 (by decide) (by decide)
     (by decide) (by decide)⟩

/-! ## Week (`src/datetime.ts`) -/

/-- `WEEK_BEGIN_DAY = 1` (Monday). -/
def WEEK_BEGIN_DAY : Int := 1

/-- `WEEK_END_DAY = 0` (Sunday). -/
def WEEK_END_DAY : Int := 0

/-- `Date.getDay()` of the date with day number `z`: day of week, 0 for
Sunday (1970-01-01, day 0, was a Thursday). -/
def getDayOfWeek (z : Int) : Int := (z + 4) % 7

/-- Embedding of `YMD.plusDays` (`src/datetime.ts`): `toDate`, day
arithmetic on the `Date`, `fromDate` back. -/
def YMD.plusDays (t : YMD) (days : Int) : YMD :=
  civilFromDays (dayNumber t + days)

/-- Embedding of `Week` (`src/datetime.ts`). -/
structure Week where
  range : DateRange
deriving DecidableEq, Repr

/-- Embedding of `Week.isWeekRange`. -/
def Week.isWeekRange (range : DateRange) : Bool :=
  if getDayOfWeek (dayNumber range.from') ≠ WEEK_BEGIN_DAY then false
  else range.to'.equals (range.from'.plusDays 6)

/-- Embedding of the `Week` constructor, which throws unless
`isWeekRange` holds. -/
def Week.make (range : DateRange) : Option Week :=
  if Week.isWeekRange range then some ⟨range⟩ else none

/-- The `while (beginOfWeekDate.getDay() !== WEEK_BEGIN_DAY)` loop of
`Week.fromYMD`, walking one day back per iteration; seven iterations of
fuel always suffice (`backToWeekday_eq`). -/
def backToWeekdayLoop : Nat → Int → Int
  | 0, z => z
  | fuel + 1, z =>
    if getDayOfWeek z = WEEK_BEGIN_DAY then z else backToWeekdayLoop fuel (z - 1)

/-- Embedding of `Week.fromYMD` (`src/datetime.ts`). -/
def Week.fromYMD (date : YMD) : Option Week :=
  let beginOfWeek := civilFromDays (backToWeekdayLoop 7 (dayNumber date))
  let endOfWeek := beginOfWeek.plusDays 6
  match DateRange.make beginOfWeek endOfWeek with
  | none => none
  | some r => Week.make r

/-- Embedding of `Week.isBeginOfWeek`. -/
def Week.isBeginOfWeek (date : YMD) : Bool :=
  getDayOfWeek (dayNumber date) = WEEK_BEGIN_DAY

theorem equals_true_iff (a b : YMD) : a.equals b = true ↔ a = b := by
  obtain ⟨ya, ma, da⟩ := a
  obtain ⟨yb, mb, db⟩ := b
  unfold YMD.equals
  simp only [Bool.and_eq_true, decide_eq_true_eq, YMD.mk.injEq]
  tauto

theorem backToWeekday_eq (z : Int) :
    backToWeekdayLoop 7 z = z - (z + 3) % 7 := by
  simp only [backToWeekdayLoop, getDayOfWeek, WEEK_BEGIN_DAY]
  split_ifs <;> omega

theorem civil_plusDays (t : YMD) (k : Int) :
    civilDayNumber (t.plusDays k) = dayNumber t + k := by
  unfold YMD.plusDays
  exact (civil_roundtrip (dayNumber t + k)).1

/-- `civilDayNumber` in terms of `daysFromCivil` for nominal months. -/
theorem civilDayNumber_eq (t : YMD) (h1 : 1 ≤ t.month) (h2 : t.month ≤ 12) :
    civilDayNumber t = daysFromCivil t.year t.month t.day := by
  unfold civilDayNumber
  rw [dateDays_eq _ _ _ h1 h2]
  have h := daysFromCivil_day t.year t.month t.day
  omega

/-- A day number at or past the start of year `y` decodes to a year at
least `y`. -/
theorem civilFromDays_year_ge (z y : Int) (h : daysFromCivil y 1 1 ≤ z) :
    y ≤ (civilFromDays z).year := by
  by_contra hlt
  push_neg at hlt
  have hr := civil_roundtrip z
  have he := civilDayNumber_eq (civilFromDays z) hr.2.1 hr.2.2.1
  have h1 : daysFromCivil (civilFromDays z).year (civilFromDays z).month (civilFromDays z).day
      ≤ daysFromCivil (civilFromDays z).year 12 31 :=
    le_year_end _ _ _ hr.2.1 hr.2.2.1 hr.2.2.2.2
  have h2 := daysFromCivil_succ_year (civilFromDays z).year
  have h3 : daysFromCivil ((civilFromDays z).year + 1) 1 1 ≤ daysFromCivil y 1 1 :=
    yearStart_le _ y (by omega)
  omega

/-- A day number at or before the end of year `y` decodes to a year at
most `y`. -/
theorem civilFromDays_year_le (z y : Int) (h : z ≤ daysFromCivil y 12 31) :
    (civilFromDays z).year ≤ y := by
  by_contra hlt
  push_neg at hlt
  have hr := civil_roundtrip z
  have he := civilDayNumber_eq (civilFromDays z) hr.2.1 hr.2.2.1
  have h1 : daysFromCivil (civilFromDays z).year 1 1
      ≤ daysFromCivil (civilFromDays z).year (civilFromDays z).month 1 :=
    monthStart_le _ 1 (by omega) _ hr.2.1 hr.2.2.1
  have h2 := daysFromCivil_day (civilFromDays z).year (civilFromDays z).month
    (civilFromDays z).day
  have h3 : daysFromCivil (y + 1) 1 1 ≤ daysFromCivil (civilFromDays z).year 1 1 :=
    yearStart_le (y + 1) _ (by omega)
  have h4 := daysFromCivil_succ_year y
  omega

/-- C9 (amended): `Week.isWeekRange r` holds iff `r.from`'s `Date` (built
with the two-digit-year remap) falls on a Monday and `r.to` structurally
equals `r.from.plusDays 6`; for every valid date `d` whose year is at most
`-2` or at least `101` (keeping the surrounding week clear of the remapped
0–99 window), `Week.fromYMD d` succeeds and returns the Monday-to-Sunday
calendar week containing `d`; and from a date whose `Date` falls on a
Monday, any of the seven offsets whose result lands outside the remapped
window yields the identical week. -/
theorem week_spec :
    (∀ r : DateRange, Week.isWeekRange r = true ↔
      (getDayOfWeek (dayNumber r.from') = WEEK_BEGIN_DAY ∧
        r.to' = r.from'.plusDays 6)) ∧
    (∀ d : YMD, ValidYMD d → (d.year ≤ -2 ∨ 101 ≤ d.year) →
      ∃ w : Week, Week.fromYMD d = some w ∧
      getDayOfWeek (civilDayNumber w.range.from') = WEEK_BEGIN_DAY ∧
      w.range.to' = w.range.from'.plusDays 6 ∧
      civilDayNumber w.range.from' ≤ civilDayNumber d ∧
      civilDayNumber d ≤ civilDayNumber w.range.from' + 6 ∧
      getDayOfWeek (civilDayNumber w.range.to') = WEEK_END_DAY) ∧
    (∀ (d : YMD) (j : Int), 0 ≤ j → j ≤ 6 →
      getDayOfWeek (dayNumber d) = WEEK_BEGIN_DAY →
      ¬ (0 ≤ (YMD.plusDays d j).year ∧ (YMD.plusDays d j).year ≤ 99) →
      Week.fromYMD (d.plusDays j) = Week.fromYMD d) := by
  have hrange : ∀ r : DateRange, Week.isWeekRange r = true ↔
      (getDayOfWeek (dayNumber r.from') = WEEK_BEGIN_DAY ∧
        r.to' = r.from'.plusDays 6) := by
    intro r
    unfold Week.isWeekRange
    split_ifs with h
    · simp only [Bool.false_eq_true, false_iff]
      intro hc
      exact h hc.1
    · push_neg at h
      rw [equals_true_iff]
      simp [h]
  refine ⟨hrange, ?_, ?_⟩
  · intro d hv hy
    have hdy : ¬ (0 ≤ d.year ∧ d.year ≤ 99) := by omega
    have hnd : dayNumber d = civilDayNumber d := dayNumber_eq_civil d hdy
    have hcd : civilDayNumber d = daysFromCivil d.year d.month d.day :=
      civilDayNumber_eq d hv.1 hv.2.1
    have hnlow : daysFromCivil d.year 1 1 ≤ civilDayNumber d := by
      have h1 : daysFromCivil d.year 1 1 ≤ daysFromCivil d.year d.month 1 :=
        monthStart_le d.year 1 (by omega) d.month hv.1 hv.2.1
      have h2 := daysFromCivil_day d.year d.month d.day
      have h3 := hv.2.2.1
      omega
    have hd31 : d.day ≤ 31 := by
      have hdim : daysInMonth d.year d.month ≤ 31 := by
        unfold daysInMonth; split_ifs <;> omega
      have h4 := hv.2.2.2
      omega
    have hnhigh : civilDayNumber d ≤ daysFromCivil d.year 12 31 := by
      have h5 := le_year_end d.year d.month d.day hv.1 hv.2.1 hd31
      omega
    have hb := backToWeekday_eq (dayNumber d)
    set n := dayNumber d with hn
    set b := backToWeekdayLoop 7 n with hbdef
    have hbprop : getDayOfWeek b = WEEK_BEGIN_DAY ∧ n - 6 ≤ b ∧ b ≤ n := by
      unfold getDayOfWeek WEEK_BEGIN_DAY
      omega
    have hyfacts : (d.year ≤ -2 → b + 6 ≤ daysFromCivil (-1) 12 31) ∧
        (101 ≤ d.year → daysFromCivil 100 1 1 ≤ b) := by
      constructor
      · intro hneg
        have h1 : daysFromCivil (d.year + 1) 1 1 ≤ daysFromCivil (-1) 1 1 :=
          yearStart_le (d.year + 1) (-1) (by omega)
        have h2 := daysFromCivil_succ_year d.year
        have h3 : daysFromCivil (-1) 1 1 + 6 ≤ daysFromCivil (-1) 12 31 := by decide
        omega
      · intro hpos
        have h1 : daysFromCivil 101 1 1 ≤ daysFromCivil d.year 1 1 :=
          yearStart_le 101 d.year hpos
        have h2 : daysFromCivil 100 1 1 ≤ daysFromCivil 101 1 1 - 6 := by decide
        omega
    have hbY : ¬ (0 ≤ (civilFromDays b).year ∧ (civilFromDays b).year ≤ 99) := by
      rcases hy with hneg | hpos
      · have h6 := civilFromDays_year_le b (-1) (by have h7 := hyfacts.1 hneg; omega)
        omega
      · have h6 := civilFromDays_year_ge b 100 (hyfacts.2 hpos)
        omega
    have hb6Y : ¬ (0 ≤ (civilFromDays (b + 6)).year ∧ (civilFromDays (b + 6)).year ≤ 99) := by
      rcases hy with hneg | hpos
      · have h6 := civilFromDays_year_le (b + 6) (-1) (hyfacts.1 hneg)
        omega
      · have h6 := civilFromDays_year_ge (b + 6) 100 (by have h7 := hyfacts.2 hpos; omega)
        omega
    have hrb := civil_roundtrip b
    have hrb6 := civil_roundtrip (b + 6)
    have hdnb : dayNumber (civilFromDays b) = b := by
      rw [dayNumber_eq_civil _ hbY, hrb.1]
    have hend : (civilFromDays b).plusDays 6 = civilFromDays (b + 6) := by
      unfold YMD.plusDays
      rw [hdnb]
    have hdn6 : dayNumber (civilFromDays (b + 6)) = b + 6 := by
      rw [dayNumber_eq_civil _ hb6Y, hrb6.1]
    have hcond : Week.isWeekRange ⟨civilFromDays b, (civilFromDays b).plusDays 6⟩
        = true := by
      rw [hrange]
      refine ⟨?_, rfl⟩
      show getDayOfWeek (dayNumber (civilFromDays b)) = WEEK_BEGIN_DAY
      rw [hdnb]
      exact hbprop.1
    refine ⟨⟨⟨civilFromDays b, (civilFromDays b).plusDays 6⟩⟩, ?_, ?_, rfl, ?_, ?_, ?_⟩
    · unfold Week.fromYMD
      dsimp only
      rw [← hbdef]
      have hmk : DateRange.make (civilFromDays b) ((civilFromDays b).plusDays 6)
          = some ⟨civilFromDays b, (civilFromDays b).plusDays 6⟩ := by
        unfold DateRange.make toEpochDate
        rw [if_neg (by rw [hend, hdnb, hdn6]; omega)]
      rw [hmk]
      show Week.make ⟨civilFromDays b, (civilFromDays b).plusDays 6⟩
        = some ⟨⟨civilFromDays b, (civilFromDays b).plusDays 6⟩⟩
      unfold Week.make
      rw [if_pos hcond]
    · show getDayOfWeek (civilDayNumber (civilFromDays b)) = WEEK_BEGIN_DAY
      rw [hrb.1]
      exact hbprop.1
    · show civilDayNumber (civilFromDays b) ≤ civilDayNumber d
      rw [hrb.1]
      omega
    · show civilDayNumber d ≤ civilDayNumber (civilFromDays b) + 6
      rw [hrb.1]
      omega
    · show getDayOfWeek (civilDayNumber ((civilFromDays b).plusDays 6)) = WEEK_END_DAY
      rw [hend, hrb6.1]
      unfold getDayOfWeek WEEK_END_DAY at *
      unfold WEEK_BEGIN_DAY at hbprop
      omega
  · intro d j hj0 hj6 hmon hwy
    unfold Week.fromYMD
    have h1 : dayNumber (d.plusDays j) = dayNumber d + j := by
      rw [dayNumber_eq_civil _ hwy]
      exact civil_plusDays d j
    rw [h1]
    have h2 : backToWeekdayLoop 7 (dayNumber d + j)
        = backToWeekdayLoop 7 (dayNumber d) := by
      rw [backToWeekday_eq, backToWeekday_eq]
      unfold getDayOfWeek WEEK_BEGIN_DAY at hmon
      omega
    rw [h2]

/-- C9 counterexample: the `Date` constructor remaps years 0–99 to
1900–1999.  0099-01-05 is a proleptic-Gregorian Monday and 0099-01-11 the
Sunday six calendar days later, yet `Week.isWeekRange` rejects the range
(the code reads `getDay()` of the remapped 1999 date); and `Week.fromYMD`
on 0099-01-04 returns the week 1999-01-04 – 1999-01-10, which does not
contain the input as a calendar day. -/
theorem week_remap_counterexample :
    getDayOfWeek (civilDayNumber ⟨99, 1, 5⟩) = WEEK_BEGIN_DAY ∧
    ValidYMD ⟨99, 1, 5⟩ ∧ ValidYMD ⟨99, 1, 11⟩ ∧
    civilDayNumber ⟨99, 1, 11⟩ = civilDayNumber ⟨99, 1, 5⟩ + 6 ∧
    Week.isWeekRange ⟨⟨99, 1, 5⟩, ⟨99, 1, 11⟩⟩ = false ∧
    Week.fromYMD ⟨99, 1, 4⟩ = some ⟨⟨⟨1999, 1, 4⟩, ⟨1999, 1, 10⟩⟩⟩ ∧
    civilDayNumber ⟨99, 1, 4⟩ < civilDayNumber ⟨1999, 1, 4⟩ :=
  ⟨by decide, by decide, by decide, by decide, by decide, by decide, by decide⟩

/-- Witness for C9: 2025/03/06 (a Thursday) yields the Monday week
2025/03/03 – 2025/03/09, and `fromYMD` on the Thursday three days after
the Monday 2025/03/03 yields the same week. -/
theorem week_spec_witness :
    ValidYMD ⟨2025, 3, 6⟩ ∧
    ((⟨2025, 3, 6⟩ : YMD).year ≤ -2 ∨ 101 ≤ (⟨2025, 3, 6⟩ : YMD).year) ∧
    (∃ w : Week, Week.fromYMD ⟨2025, 3, 6⟩ = some w ∧
      getDayOfWeek (civilDayNumber w.range.from') = WEEK_BEGIN_DAY ∧
      w.range.to' = w.range.from'.plusDays 6 ∧
      civilDayNumber w.range.from' ≤ civilDayNumber ⟨2025, 3, 6⟩ ∧
      civilDayNumber ⟨2025, 3, 6⟩ ≤ civilDayNumber w.range.from' + 6 ∧
      getDayOfWeek (civilDayNumber w.range.to') = WEEK_END_DAY) ∧
    getDayOfWeek (dayNumber ⟨2025, 3, 3⟩) = WEEK_BEGIN_DAY ∧
    ¬ (0 ≤ (YMD.plusDays ⟨2025, 3, 3⟩ 3).year ∧
        (YMD.plusDays ⟨2025, 3, 3⟩ 3).year ≤ 99) ∧
    Week.fromYMD (YMD.plusDays ⟨2025, 3, 3⟩ 3) = Week.fromYMD ⟨2025, 3, 3⟩ :=
  ⟨by decide, by decide,
   week_spec.2.1 ⟨2025, 3, 6⟩ (by decide) (by decide),
   by decide, by decide,
   week_spec.2.2 ⟨2025, 3, 3⟩ 3 (by decide) (by decide) (by decide) (by decide)⟩

/-! ## Temporal classification (`src/lib.ts`, `srcPath`-based version)

The classifier calls into the `moment` library.  `moment(text, DATE_FORMAT,
true)` (strict) is modelled as an exact `dddd/dd/dd` match validated
against the civil calendar; `moment(rawDate, DATE_FORMAT)` (lenient, used
on the two sides of the `" ~ "` delimiter) is modelled as three
slash-separated digit groups validated the same way — exact on the
delimiter-clean inputs that reach it here. -/

def DATE_RANGE_DELIMITER : String := " ~ "

/-- JavaScript `String.prototype.split` with a nonempty string separator:
left-to-right scan, non-overlapping matches (fuel-driven recursion; the
fuel is the input length, which the scan consumes at least one character
per step, so it never runs out). -/
def splitSubAux (sep : List Char) : Nat → List Char → List Char → List (List Char)
  | _, [], acc => [acc.reverse]
  | 0, s, acc => [acc.reverse ++ s]
  | fuel + 1, c :: rest, acc =>
    if sep ≠ [] ∧ (c :: rest).take sep.length = sep then
      acc.reverse :: splitSubAux sep fuel ((c :: rest).drop sep.length) []
    else splitSubAux sep fuel rest (c :: acc)

def splitOnStr (sep s : String) : List String :=
  (splitSubAux sep.data s.data.length s.data []).map fun l => ⟨l⟩

def digitVal (c : Char) : Int := (c.toNat : Int) - 48

def digitsToInt (l : List Char) : Int :=
  l.foldl (fun acc c => acc * 10 + digitVal c) 0

/-- A parsed `y/m/d` triple is kept only when it denotes a real calendar
date (`moment` marks overflowing fields invalid). -/
def checkedYMD (y m d : Int) : Option YMD :=
  if 1 ≤ m ∧ m ≤ 12 ∧ 1 ≤ d ∧ d ≤ daysInMonth y m then some ⟨y, m, d⟩ else none

/-- Strict `moment(text, "YYYY/MM/DD", true).isValid()` plus
`YMD.fromMoment`. -/
def momentStrictYMD (s : String) : Option YMD :=
  match s.data with
  | [y1, y2, y3, y4, '/', m1, m2, '/', d1, d2] =>
    if (y1.isDigit && y2.isDigit && y3.isDigit && y4.isDigit &&
        m1.isDigit && m2.isDigit && d1.isDigit && d2.isDigit) then
      checkedYMD (digitsToInt [y1, y2, y3, y4]) (digitsToInt [m1, m2]) (digitsToInt [d1, d2])
    else none
  | _ => none

/-- Lenient `moment(rawDate, "YYYY/MM/DD").isValid()` plus
`YMD.fromMoment`. -/
def momentLenientYMD (s : String) : Option YMD :=
  match splitOnStr "/" s with
  | [ys, ms, ds] =>
    if (ys.data ≠ [] && ys.data.all Char.isDigit &&
        ms.data ≠ [] && ms.data.all Char.isDigit &&
        ds.data ≠ [] && ds.data.all Char.isDigit) then
      checkedYMD (digitsToInt ys.data) (digitsToInt ms.data) (digitsToInt ds.data)
    else none
  | _ => none

/-- Embedding of `TaskWeek` (`src/lib.ts`). -/
structure TaskWeek where
  range : DateRange
  tasks : List MDListNode
deriving DecidableEq, Repr

/-- Embedding of `TaskDay` (`src/lib.ts`). -/
structure TaskDay where
  date : YMD
  tasks : List MDListNode
deriving DecidableEq, Repr

/-- Embedding of `MalformedMD` (`src/lib.ts`). -/
structure MalformedMD where
  reason : String
  node : MDListNode
deriving DecidableEq, Repr

/-- Embedding of `TaskRoot` (`src/lib.ts`). -/
structure TaskRoot where
  taskWeeks : List TaskWeek
  taskDays : List TaskDay
  malformedMDs : List MalformedMD
deriving DecidableEq, Repr

/-- The `TaskWeek` constructor throws unless `from` falls on
`WEEK_BEGIN_DAY` and `to` falls on `WEEK_END_DAY` (each checked via
`toDate().getDay()`). -/
def TaskWeek.make (range : DateRange) : Option TaskWeek :=
  if getDayOfWeek (dayNumber range.from') ≠ WEEK_BEGIN_DAY ∨
      getDayOfWeek (dayNumber range.to') ≠ WEEK_END_DAY then none
  else some ⟨range, []⟩

/-- Embedding of `DateRange.equals`. -/
def DateRange.equals (a b : DateRange) : Bool :=
  a.from'.equals b.from' && a.to'.equals b.to'

/-- Embedding of `TaskRoot.getTaskWeek`: first entry with an equal range. -/
def TaskRoot.getTaskWeek (root : TaskRoot) (range : DateRange) : Option TaskWeek :=
  root.taskWeeks.find? (fun e => e.range.equals range)

/-- Embedding of `TaskRoot.getTaskDay`: first entry with an equal date. -/
def TaskRoot.getTaskDay (root : TaskRoot) (tgt : YMD) : Option TaskDay :=
  root.taskDays.find? (fun e => e.date.equals tgt)

/-- Embedding of `parseWeekStr`'s date-collection loop: the first invalid
piece aborts with `"Invalid date format"`. -/
def parseWeekStrDates : List String → Except String (List YMD)
  | [] => .ok []
  | s :: rest =>
    match momentLenientYMD s with
    | none => .error "Invalid date format"
    | some d => (parseWeekStrDates rest).map (d :: ·)

/-- Embedding of `parseWeekStr` (`src/lib.ts`): split on `" ~ "`, parse
each piece leniently, require exactly two dates, and construct the
`DateRange` (whose failure is reported as `"Invalid range"`). -/
def parseWeekStr (s : String) : Except String DateRange :=
  match parseWeekStrDates (splitOnStr DATE_RANGE_DELIMITER s) with
  | .error e => .error e
  | .ok [a, b] =>
    match DateRange.make a b with
    | none => .error "Invalid range"
    | some r => .ok r
  | .ok ds => .error ("Invalid length of data: " ++ toString ds.length)

/-- The body of `parseMDRootToTaskRoot`'s `for (const child of
mdRoot.children)` loop: classify one root-level subtree as a day, a week,
or a malformed entry, appending it to the accumulated root. -/
def classifyChild (root : TaskRoot) (child : MDListNode) : TaskRoot :=
  match momentStrictYMD child.text with
  | some ymd =>
    { root with taskDays := root.taskDays ++ [⟨ymd, child.children⟩] }
  | none =>
    match parseWeekStr child.text with
    | .error _ =>
      { root with malformedMDs := root.malformedMDs ++ [⟨"Invalid range format", child⟩] }
    | .ok weekRange =>
      match TaskWeek.make weekRange with
      | none =>
        { root with malformedMDs := root.malformedMDs ++ [⟨"Invalid week range", child⟩] }
      | some tw =>
        { root with taskWeeks := root.taskWeeks ++ [{ tw with tasks := tw.tasks ++ child.children }] }

/-- Embedding of `parseMDRootToTaskRoot` (`src/lib.ts`, lines 362–390). -/
def parseMDRootToTaskRoot (mdRoot : MDListNode) : TaskRoot :=
  mdRoot.children.foldl classifyChild ⟨[], [], []⟩

/-- One step of `mergeTaskRoots`' week loop: the first entry of `ws` with
an equal range receives `w`'s tasks; with no such entry `w` itself is
appended. -/
def mergeWeekInto : List TaskWeek → TaskWeek → List TaskWeek
  | [], w => [w]
  | e :: rest, w =>
    if e.range.equals w.range then { e with tasks := e.tasks ++ w.tasks } :: rest
    else e :: mergeWeekInto rest w

/-- One step of `mergeTaskRoots`' day loop. -/
def mergeDayInto : List TaskDay → TaskDay → List TaskDay
  | [], d => [d]
  | e :: rest, d =>
    if e.date.equals d.date then { e with tasks := e.tasks ++ d.tasks } :: rest
    else e :: mergeDayInto rest d

/-- Embedding of `mergeTaskRoots` (`src/lib.ts`, lines 398–416): the
malformed entries are concatenated, then each of `from`'s weeks and days
is merged into `to` by key (`getTaskWeek`/`getTaskDay` find-first plus
task append, else push). -/
def mergeTaskRoots (from' to' : TaskRoot) : TaskRoot :=
  { taskWeeks := from'.taskWeeks.foldl mergeWeekInto to'.taskWeeks
    taskDays := from'.taskDays.foldl mergeDayInto to'.taskDays
    malformedMDs := to'.malformedMDs ++ from'.malformedMDs }

/-- Total number of entries a `TaskRoot` records. -/
def rootSize (r : TaskRoot) : Nat :=
  r.taskWeeks.length + r.taskDays.length + r.malformedMDs.length

theorem classifyChild_size (acc : TaskRoot) (c : MDListNode) :
    rootSize (classifyChild acc c) = rootSize acc + 1 := by
  unfold classifyChild rootSize
  rcases hm : momentStrictYMD c.text with _ | ymd
  · simp only [hm]
    rcases hw : parseWeekStr c.text with e | weekRange
    · simp only [hw]
      simp only [List.length_append, List.length_cons, List.length_nil]
      omega
    · simp only [hw]
      rcases hk : TaskWeek.make weekRange with _ | tw
      · simp only [hk]
        simp only [List.length_append, List.length_cons, List.length_nil]
        omega
      · simp only [hk]
        simp only [List.length_append, List.length_cons, List.length_nil]
        omega
  · simp only [hm]
    simp only [List.length_append, List.length_cons, List.length_nil]
    omega

theorem classify_counts (children : List MDListNode) :
    ∀ acc : TaskRoot,
      rootSize (children.foldl classifyChild acc) = rootSize acc + children.length := by
  induction children with
  | nil => intro acc; simp
  | cons c cs ih =>
    intro acc
    rw [List.foldl_cons, ih, classifyChild_size]
    simp only [List.length_cons]
    omega

/-- C7: the root subtree `2025/03/03 ~ 2025/03/09` with child `foo`
classifies as the Monday-to-Sunday week 2025/03/03–2025/03/09 carrying the
single task `foo`; the Tuesday-start subtree `2025/03/04 ~ 2025/03/09` is
recorded in the malformed list with reason `"Invalid week range"`; and
classification never throws out of `parseMDRootToTaskRoot` — every child
is recorded in exactly one of the three lists. -/
theorem parseMDRoot_spec :
    parseMDRootToTaskRoot (MDListNode.mk none "ROOT"
        [MDListNode.ofText "2025/03/03 ~ 2025/03/09" [MDListNode.ofText "foo"]])
      = ⟨[⟨⟨⟨2025, 3, 3⟩, ⟨2025, 3, 9⟩⟩, [MDListNode.mk none "foo" []]⟩], [], []⟩ ∧
    parseMDRootToTaskRoot (MDListNode.mk none "ROOT"
        [MDListNode.ofText "2025/03/04 ~ 2025/03/09" [MDListNode.ofText "foo"]])
      = ⟨[], [], [⟨"Invalid week range",
          MDListNode.mk none "2025/03/04 ~ 2025/03/09"
            [MDListNode.mk none "foo" []]⟩]⟩ ∧
    (∀ mdRoot : MDListNode,
      (parseMDRootToTaskRoot mdRoot).taskWeeks.length
        + (parseMDRootToTaskRoot mdRoot).taskDays.length
        + (parseMDRootToTaskRoot mdRoot).malformedMDs.length
        = mdRoot.children.length) := by
  refine ⟨by decide, by decide, ?_⟩
  intro mdRoot
  have h := classify_counts mdRoot.children ⟨[], [], []⟩
  unfold parseMDRootToTaskRoot
  unfold rootSize at h
  simpa using h

/-- The Monday-to-Sunday range 2025/03/03–2025/03/09 used in the concrete
merge scenarios. -/
def exRange : DateRange := ⟨⟨2025, 3, 3⟩, ⟨2025, 3, 9⟩⟩

/-- C6: merging a tree holding one week entry with two tasks into a tree
holding an entry for the equal week range with one different task yields
exactly one shell for that week whose task list contains all three tasks
(target's first, then the source's in order); a second scenario with
literally identical tasks shows that tasks are never de-duplicated. -/
theorem merge_week_concrete_spec :
    mergeTaskRoots
        ⟨[⟨exRange, [MDListNode.mk none "a" [], MDListNode.mk none "b" []]⟩], [], []⟩
        ⟨[⟨exRange, [MDListNode.mk none "c" []]⟩], [], []⟩
      = ⟨[⟨exRange, [MDListNode.mk none "c" [], MDListNode.mk none "a" [],
          MDListNode.mk none "b" []]⟩], [], []⟩ ∧
    mergeTaskRoots ⟨[⟨exRange, [MDListNode.mk none "a" []]⟩], [], []⟩
        ⟨[⟨exRange, [MDListNode.mk none "a" []]⟩], [], []⟩
      = ⟨[⟨exRange, [MDListNode.mk none "a" [], MDListNode.mk none "a" []]⟩], [], []⟩ := by
  refine ⟨by decide, by decide⟩

/-! ## Merge membership (C5) -/

theorem dr_equals_true_iff (a b : DateRange) : a.equals b = true ↔ a = b := by
  obtain ⟨af, al⟩ := a
  obtain ⟨bf, bl⟩ := b
  unfold DateRange.equals
  simp only [Bool.and_eq_true, equals_true_iff, DateRange.mk.injEq]

/-- The tasks recorded for week key `r` (as a multiset: order-free,
duplicates counted). -/
def weekTasksList (ws : List TaskWeek) (r : DateRange) : Multiset MDListNode :=
  (((ws.filter fun w => w.range.equals r).map TaskWeek.tasks).flatten : List MDListNode)

/-- The tasks recorded for day key `d`. -/
def dayTasksList (ds : List TaskDay) (d : YMD) : Multiset MDListNode :=
  (((ds.filter fun e => e.date.equals d).map TaskDay.tasks).flatten : List MDListNode)

def weekTasksMS (R : TaskRoot) (r : DateRange) : Multiset MDListNode :=
  weekTasksList R.taskWeeks r

def dayTasksMS (R : TaskRoot) (d : YMD) : Multiset MDListNode :=
  dayTasksList R.taskDays d

def malformedMS (R : TaskRoot) : Multiset MalformedMD := (R.malformedMDs : List _)

/-- Week key `r` is present among the week shells. -/
def WeekKeyMem (R : TaskRoot) (r : DateRange) : Prop :=
  ∃ w ∈ R.taskWeeks, w.range = r

/-- Day key `d` is present among the day shells. -/
def DayKeyMem (R : TaskRoot) (d : YMD) : Prop :=
  ∃ e ∈ R.taskDays, e.date = d

theorem weekTasksList_cons (w : TaskWeek) (ws : List TaskWeek) (r : DateRange) :
    weekTasksList (w :: ws) r
      = (if w.range = r then (w.tasks : Multiset MDListNode) else 0)
        + weekTasksList ws r := by
  unfold weekTasksList
  by_cases h : w.range = r
  · rw [if_pos h]
    rw [List.filter_cons_of_pos (by simpa [dr_equals_true_iff] using h)]
    simp
  · rw [if_neg h]
    rw [List.filter_cons_of_neg (by simpa [dr_equals_true_iff] using h)]
    simp

theorem weekTasks_mergeWeekInto (ws : List TaskWeek) (w : TaskWeek) (r : DateRange) :
    weekTasksList (mergeWeekInto ws w) r
      = weekTasksList ws r + (if w.range = r then (w.tasks : Multiset MDListNode) else 0) := by
  induction ws with
  | nil =>
    show weekTasksList [w] r = weekTasksList [] r + _
    rw [weekTasksList_cons]
    have : weekTasksList [] r = 0 := rfl
    rw [this]
    rw [add_comm]
  | cons e rest ih =>
    show weekTasksList (if e.range.equals w.range then _ else _) r = _
    by_cases he : e.range.equals w.range = true
    · rw [if_pos he]
      rw [dr_equals_true_iff] at he
      rw [weekTasksList_cons, weekTasksList_cons]
      by_cases her : e.range = r
      · have hwr : w.range = r := by rw [← he]; exact her
        rw [if_pos (show ({ e with tasks := e.tasks ++ w.tasks } : TaskWeek).range = r from her),
          if_pos her, if_pos hwr]
        show ((e.tasks ++ w.tasks : List MDListNode) : Multiset MDListNode) + weekTasksList rest r = _
        rw [show ((e.tasks ++ w.tasks : List MDListNode) : Multiset MDListNode)
          = (e.tasks : Multiset MDListNode) + (w.tasks : Multiset MDListNode) from rfl]
        abel
      · have hwr : ¬ w.range = r := by rw [← he]; exact her
        rw [if_neg (show ¬ ({ e with tasks := e.tasks ++ w.tasks } : TaskWeek).range = r from her),
          if_neg her, if_neg hwr]
        abel
    · rw [if_neg he]
      rw [weekTasksList_cons, weekTasksList_cons, ih]
      abel

theorem weekTasks_merge_fold (L : List TaskWeek) :
    ∀ (ws : List TaskWeek) (r : DateRange),
      weekTasksList (L.foldl mergeWeekInto ws) r
        = weekTasksList ws r + weekTasksList L r := by
  induction L with
  | nil => intro ws r; simp [weekTasksList]
  | cons w L ih =>
    intro ws r
    rw [List.foldl_cons, ih, weekTasks_mergeWeekInto, weekTasksList_cons]
    abel

theorem dayTasksList_cons (e : TaskDay) (ds : List TaskDay) (d : YMD) :
    dayTasksList (e :: ds) d
      = (if e.date = d then (e.tasks : Multiset MDListNode) else 0) + dayTasksList ds d := by
  unfold dayTasksList
  by_cases h : e.date = d
  · rw [if_pos h]
    rw [List.filter_cons_of_pos (by simpa [equals_true_iff] using h)]
    simp
  · rw [if_neg h]
    rw [List.filter_cons_of_neg (by simpa [equals_true_iff] using h)]
    simp

theorem dayTasks_mergeDayInto (ds : List TaskDay) (e : TaskDay) (d : YMD) :
    dayTasksList (mergeDayInto ds e) d
      = dayTasksList ds d + (if e.date = d then (e.tasks : Multiset MDListNode) else 0) := by
  induction ds with
  | nil =>
    show dayTasksList [e] d = dayTasksList [] d + _
    rw [dayTasksList_cons]
    have : dayTasksList [] d = 0 := rfl
    rw [this, add_comm]
  | cons x rest ih =>
    show dayTasksList (if x.date.equals e.date then _ else _) d = _
    by_cases hx : x.date.equals e.date = true
    · rw [if_pos hx]
      rw [equals_true_iff] at hx
      rw [dayTasksList_cons, dayTasksList_cons]
      by_cases hxd : x.date = d
      · have hed : e.date = d := by rw [← hx]; exact hxd
        rw [if_pos (show ({ x with tasks := x.tasks ++ e.tasks } : TaskDay).date = d from hxd),
          if_pos hxd, if_pos hed]
        show ((x.tasks ++ e.tasks : List MDListNode) : Multiset MDListNode) + dayTasksList rest d = _
        rw [show ((x.tasks ++ e.tasks : List MDListNode) : Multiset MDListNode)
          = (x.tasks : Multiset MDListNode) + (e.tasks : Multiset MDListNode) from rfl]
        abel
      · have hed : ¬ e.date = d := by rw [← hx]; exact hxd
        rw [if_neg (show ¬ ({ x with tasks := x.tasks ++ e.tasks } : TaskDay).date = d from hxd),
          if_neg hxd, if_neg hed]
        abel
    · rw [if_neg hx]
      rw [dayTasksList_cons, dayTasksList_cons, ih]
      abel

theorem dayTasks_merge_fold (L : List TaskDay) :
    ∀ (ds : List TaskDay) (d : YMD),
      dayTasksList (L.foldl mergeDayInto ds) d = dayTasksList ds d + dayTasksList L d := by
  induction L with
  | nil => intro ds d; simp [dayTasksList]
  | cons e L ih =>
    intro ds d
    rw [List.foldl_cons, ih, dayTasks_mergeDayInto, dayTasksList_cons]
    abel

theorem weekKey_mergeWeekInto (ws : List TaskWeek) (w : TaskWeek) (r : DateRange) :
    (∃ x ∈ mergeWeekInto ws w, x.range = r)
      ↔ (∃ x ∈ ws, x.range = r) ∨ w.range = r := by
  induction ws with
  | nil =>
    show (∃ x ∈ [w], x.range = r) ↔ (∃ x ∈ ([] : List TaskWeek), x.range = r) ∨ w.range = r
    simp
  | cons e rest ih =>
    simp only [mergeWeekInto]
    by_cases he : e.range.equals w.range = true
    · rw [if_pos he]
      rw [dr_equals_true_iff] at he
      clear ih
      simp only [List.exists_mem_cons_iff]
      have hupd : ({ e with tasks := e.tasks ++ w.tasks } : TaskWeek).range = e.range := rfl
      rw [hupd, he]
      exact ⟨Or.inl, fun h => h.elim id Or.inl⟩
    · rw [if_neg he]
      simp only [List.exists_mem_cons_iff, ih]
      exact or_assoc.symm

theorem weekKey_merge_fold (L : List TaskWeek) :
    ∀ (ws : List TaskWeek) (r : DateRange),
      (∃ x ∈ L.foldl mergeWeekInto ws, x.range = r)
        ↔ (∃ x ∈ ws, x.range = r) ∨ (∃ x ∈ L, x.range = r) := by
  induction L with
  | nil => intro ws r; simp
  | cons w L ih =>
    intro ws r
    rw [List.foldl_cons, ih, weekKey_mergeWeekInto]
    simp only [List.exists_mem_cons_iff]
    exact or_assoc

theorem dayKey_mergeDayInto (ds : List TaskDay) (e : TaskDay) (d : YMD) :
    (∃ x ∈ mergeDayInto ds e, x.date = d)
      ↔ (∃ x ∈ ds, x.date = d) ∨ e.date = d := by
  induction ds with
  | nil =>
    show (∃ x ∈ [e], x.date = d) ↔ (∃ x ∈ ([] : List TaskDay), x.date = d) ∨ e.date = d
    simp
  | cons x rest ih =>
    simp only [mergeDayInto]
    by_cases hx : x.date.equals e.date = true
    · rw [if_pos hx]
      rw [equals_true_iff] at hx
      clear ih
      simp only [List.exists_mem_cons_iff]
      have hupd : ({ x with tasks := x.tasks ++ e.tasks } : TaskDay).date = x.date := rfl
      rw [hupd, hx]
      exact ⟨Or.inl, fun h => h.elim id Or.inl⟩
    · rw [if_neg hx]
      simp only [List.exists_mem_cons_iff, ih]
      exact or_assoc.symm

theorem dayKey_merge_fold (L : List TaskDay) :
    ∀ (ds : List TaskDay) (d : YMD),
      (∃ x ∈ L.foldl mergeDayInto ds, x.date = d)
        ↔ (∃ x ∈ ds, x.date = d) ∨ (∃ x ∈ L, x.date = d) := by
  induction L with
  | nil => intro ds d; simp
  | cons e L ih =>
    intro ds d
    rw [List.foldl_cons, ih, dayKey_mergeDayInto]
    simp only [List.exists_mem_cons_iff]
    exact or_assoc

/-- C5 (amended): with membership read as multisets of tasks per temporal
key (and of malformed entries), merging is a pointwise multiset sum — hence
associative and order-independent — and the key sets of week and day
shells combine by union; but the merge is **not** idempotent: re-merging
the same source adds a second copy of its task and malformed contributions
(only the key sets are unchanged). -/
theorem merge_membership_spec :
    (∀ F T r, weekTasksMS (mergeTaskRoots F T) r = weekTasksMS T r + weekTasksMS F r) ∧
    (∀ F T d, dayTasksMS (mergeTaskRoots F T) d = dayTasksMS T d + dayTasksMS F d) ∧
    (∀ F T, malformedMS (mergeTaskRoots F T) = malformedMS T + malformedMS F) ∧
    (∀ F T r, WeekKeyMem (mergeTaskRoots F T) r ↔ WeekKeyMem T r ∨ WeekKeyMem F r) ∧
    (∀ F T d, DayKeyMem (mergeTaskRoots F T) d ↔ DayKeyMem T d ∨ DayKeyMem F d) ∧
    (∀ A B C r, weekTasksMS (mergeTaskRoots C (mergeTaskRoots B A)) r
      = weekTasksMS (mergeTaskRoots (mergeTaskRoots C B) A) r) ∧
    (∀ A B r, weekTasksMS (mergeTaskRoots B A) r = weekTasksMS (mergeTaskRoots A B) r) ∧
    (∀ A B r, weekTasksMS (mergeTaskRoots A (mergeTaskRoots A B)) r
      = weekTasksMS (mergeTaskRoots A B) r + weekTasksMS A r) ∧
    (∀ A B r, WeekKeyMem (mergeTaskRoots A (mergeTaskRoots A B)) r ↔
      WeekKeyMem (mergeTaskRoots A B) r) := by
  have hweek : ∀ F T r, weekTasksMS (mergeTaskRoots F T) r
      = weekTasksMS T r + weekTasksMS F r := by
    intro F T r
    unfold weekTasksMS mergeTaskRoots
    exact weekTasks_merge_fold F.taskWeeks T.taskWeeks r
  have hday : ∀ F T d, dayTasksMS (mergeTaskRoots F T) d
      = dayTasksMS T d + dayTasksMS F d := by
    intro F T d
    unfold dayTasksMS mergeTaskRoots
    exact dayTasks_merge_fold F.taskDays T.taskDays d
  have hkey : ∀ F T r, WeekKeyMem (mergeTaskRoots F T) r
      ↔ WeekKeyMem T r ∨ WeekKeyMem F r := by
    intro F T r
    unfold WeekKeyMem mergeTaskRoots
    exact weekKey_merge_fold F.taskWeeks T.taskWeeks r
  refine ⟨hweek, hday, fun F T => rfl, hkey, ?_, ?_, ?_, ?_, ?_⟩
  · intro F T d
    unfold DayKeyMem mergeTaskRoots
    exact dayKey_merge_fold F.taskDays T.taskDays d
  · intro A B C r
    rw [hweek, hweek, hweek, hweek]
    abel
  · intro A B r
    rw [hweek, hweek]
    abel
  · intro A B r
    rw [hweek]
  · intro A B r
    rw [hkey, hkey]
    tauto

/-- C5 counterexample: merging the same source tree into a target a second
time is observably different from merging it once — the week's single task
is duplicated by the re-merge, so the merge is not idempotent at the level
of task membership. -/
theorem merge_idempotent_counterexample :
    mergeTaskRoots ⟨[⟨exRange, [MDListNode.mk none "a" []]⟩], [], []⟩
        (mergeTaskRoots ⟨[⟨exRange, [MDListNode.mk none "a" []]⟩], [], []⟩ ⟨[], [], []⟩)
      ≠ mergeTaskRoots ⟨[⟨exRange, [MDListNode.mk none "a" []]⟩], [], []⟩ ⟨[], [], []⟩ ∧
    ((mergeTaskRoots ⟨[⟨exRange, [MDListNode.mk none "a" []]⟩], [], []⟩
        (mergeTaskRoots ⟨[⟨exRange, [MDListNode.mk none "a" []]⟩], [], []⟩
          ⟨[], [], []⟩)).taskWeeks.map fun w => w.tasks.length) = [2] ∧
    ((mergeTaskRoots ⟨[⟨exRange, [MDListNode.mk none "a" []]⟩], [], []⟩
        ⟨[], [], []⟩).taskWeeks.map fun w => w.tasks.length) = [1] :=
  ⟨by decide, by decide, by decide⟩

/-! ## Hunk splitting (C4, `SourceFile`-based `parseContentToListHunks`) -/

/-- Embedding of `MDListLine.fromLine` (`src/lib.ts`): try
`REGEX_MD_LIST_WITH_CONTENT = /^(\s*)-\s+(.+)$/` (the greedy `\s+` backs
off just enough to leave a nonempty all-`.` tail), then
`REGEX_MD_LIST_EMPTY = /^(\s*)-$/`. -/
def MDListLine.fromLine (text : String) : Option MDListLine :=
  let s := text.data
  let w1 := (s.takeWhile isWS).length
  match s.drop w1 with
  | '-' :: rest2 =>
    let w2 := (rest2.takeWhile isWS).length
    let n := rest2.length
    if 1 ≤ w2 ∧ 2 ≤ n ∧ (rest2.drop (min w2 (n - 1))).all isDot then
      some ⟨w1, ⟨rest2.drop (min w2 (n - 1))⟩⟩
    else if rest2 = [] then some ⟨w1, ""⟩ else none
  | _ => none

/-- The buffer/flush loop shared by both generations of
`parseContentToListHunks`: a line classified `none` flushes a nonempty
buffer, a line classified `some` is appended to the buffer, and the final
buffer is pushed unconditionally.  (The source wraps each emitted buffer
in a `Hunk`/`MDListHunk` object holding exactly the list; the wrapper is
elided here.) -/
def hunkLoop {a : Type} (f : String -> Option a) :
    List String -> List a -> List (List a) -> List (List a)
  | [], buffer, hunks => hunks ++ [buffer]
  | line :: rest, buffer, hunks =>
    match f line with
    | none =>
      if buffer.length ≠ 0 then hunkLoop f rest [] (hunks ++ [buffer])
      else hunkLoop f rest buffer hunks
    | some x => hunkLoop f rest (buffer ++ [x]) hunks

/-- Embedding of `parseContentToListHunks` (`src/lib.ts`, lines 691–708,
the `MDListLine.fromLine`-based version). -/
def parseContentToListHunks (content : String) : List (List MDListLine) :=
  hunkLoop MDListLine.fromLine (splitOnStr "\n" content) [] []

/-- Specification-side definition: the maximal contiguous runs of
classified (`some`) elements, in order. -/
def listRuns {a : Type} : List (Option a) -> List (List a)
  | [] => []
  | none :: rest => listRuns rest
  | [some x] => [[x]]
  | some x :: none :: rest => [x] :: listRuns rest
  | some x :: some y :: rest =>
    match listRuns (some y :: rest) with
    | r :: rs => (x :: r) :: rs
    | [] => [[x]]

/-- Does the sequence end in a classified (`some`) element? -/
def endsSome {a : Type} : List (Option a) -> Bool
  | [] => false
  | [some _] => true
  | [none] => false
  | _ :: rest => endsSome rest

/-- The runs plus the trailing empty hunk that the unconditional final
flush emits whenever the document does not end inside a run. -/
def runsPlus {a : Type} (l : List (Option a)) : List (List a) :=
  listRuns l ++ (if endsSome l then [] else [[]])

def mergeFirstRun {a : Type} (b : List a) : List (List a) -> List (List a)
  | [] => [b]
  | r :: rs => (b ++ r) :: rs

/-- The loop's result as a function of the classified line sequence and
the incoming buffer. -/
def consRuns {a : Type} (buffer : List a) (opts : List (Option a)) : List (List a) :=
  match opts with
  | [] => [buffer]
  | none :: _ => (if buffer.length = 0 then [] else [buffer]) ++ runsPlus opts
  | some _ :: _ => mergeFirstRun buffer (runsPlus opts)

theorem listRuns_some_ne_nil {a : Type} (x : a) (y : List (Option a)) :
    listRuns (some x :: y) ≠ [] := by
  match y with
  | [] => simp [listRuns]
  | none :: rest => simp [listRuns]
  | some z :: rest =>
    show (match listRuns (some z :: rest) with
      | r :: rs => (x :: r) :: rs
      | [] => [[x]]) ≠ []
    match listRuns (some z :: rest) with
    | [] => simp
    | r :: rs => simp

theorem runsPlus_none {a : Type} (y : List (Option a)) :
    runsPlus (none :: y) = runsPlus y := by
  unfold runsPlus
  have h1 : listRuns (none :: y) = listRuns y := by
    match y with
    | [] => rfl
    | z :: rest => rfl
  have h2 : endsSome (none :: y) = endsSome y := by
    match y with
    | [] => rfl
    | z :: rest => rfl
  rw [h1, h2]

theorem consRuns_nil {a : Type} (opts : List (Option a)) :
    consRuns ([] : List a) opts = runsPlus opts := by
  match opts with
  | [] => rfl
  | none :: rest => simp [consRuns]
  | some x :: rest =>
    unfold consRuns mergeFirstRun
    have hne : listRuns (some x :: rest) ≠ [] := listRuns_some_ne_nil x rest
    unfold runsPlus
    match h : listRuns (some x :: rest) with
    | [] => exact absurd h hne
    | r :: rs => simp

theorem consRuns_some {a : Type} (b : List a) (x : a) (y : List (Option a)) :
    consRuns (b ++ [x]) y = mergeFirstRun b (runsPlus (some x :: y)) := by
  match y with
  | [] =>
    show [b ++ [x]] = mergeFirstRun b (runsPlus [some x])
    simp [runsPlus, listRuns, endsSome, mergeFirstRun]
  | none :: y2 =>
    show (if (b ++ [x]).length = 0 then [] else [b ++ [x]]) ++ runsPlus (none :: y2)
      = mergeFirstRun b (runsPlus (some x :: none :: y2))
    rw [if_neg (by simp), runsPlus_none]
    have h1 : listRuns (some x :: none :: y2) = [x] :: listRuns y2 := rfl
    have h2 : endsSome (some x :: none :: y2) = endsSome y2 := by
      match y2 with
      | [] => rfl
      | z :: rest => rfl
    unfold runsPlus
    rw [h1, h2]
    simp [mergeFirstRun]
  | some c :: y2 =>
    show mergeFirstRun (b ++ [x]) (runsPlus (some c :: y2))
      = mergeFirstRun b (runsPlus (some x :: some c :: y2))
    have hne : listRuns (some c :: y2) ≠ [] := listRuns_some_ne_nil c y2
    have h2 : endsSome (some x :: some c :: y2) = endsSome (some c :: y2) := rfl
    unfold runsPlus
    rw [h2]
    match h : listRuns (some c :: y2) with
    | [] => exact absurd h hne
    | r :: rs =>
      have h1 : listRuns (some x :: some c :: y2) = (x :: r) :: rs := by
        show (match listRuns (some c :: y2) with
          | r :: rs => (x :: r) :: rs
          | [] => [[x]]) = (x :: r) :: rs
        rw [h]
      rw [h1]
      simp [mergeFirstRun]

theorem hunkLoop_char {a : Type} (f : String -> Option a) :
    ∀ (lines : List String) (buffer : List a) (hunks : List (List a)),
      hunkLoop f lines buffer hunks = hunks ++ consRuns buffer (lines.map f) := by
  intro lines
  induction lines with
  | nil => intro buffer hunks; rfl
  | cons line rest ih =>
    intro buffer hunks
    show (match f line with
      | none =>
        if buffer.length ≠ 0 then hunkLoop f rest [] (hunks ++ [buffer])
        else hunkLoop f rest buffer hunks
      | some x => hunkLoop f rest (buffer ++ [x]) hunks) = _
    rcases hf : f line with _ | x
    · simp only [List.map_cons, hf]
      by_cases hb : buffer = []
      · subst hb
        rw [if_neg (by simp)]
        rw [ih, consRuns_nil]
        show hunks ++ runsPlus (rest.map f) = hunks ++ consRuns [] (none :: rest.map f)
        rw [show consRuns ([] : List a) (none :: rest.map f)
          = runsPlus (none :: rest.map f) from consRuns_nil _, runsPlus_none]
      · rw [if_pos (by simpa using hb)]
        rw [ih, consRuns_nil]
        show hunks ++ [buffer] ++ runsPlus (rest.map f)
          = hunks ++ ((if buffer.length = 0 then [] else [buffer])
            ++ runsPlus (none :: rest.map f))
        rw [if_neg (by simpa using hb), runsPlus_none, List.append_assoc]
    · simp only [List.map_cons, hf]
      rw [ih, consRuns_some]
      rfl

/-- C4 counterexample: on a document whose final buffer is empty (here a
document with no list lines at all) the unconditional trailing flush emits
an empty hunk, so "no returned hunk is empty" fails on the code. -/
theorem hunks_empty_counterexample :
    parseContentToListHunks "" = [[]] ∧ [] ∈ parseContentToListHunks "" :=
  ⟨by decide, by decide⟩

theorem listRuns_ne_nil_mem {a : Type} :
    ∀ (l : List (Option a)), ∀ r ∈ listRuns l, r ≠ []
  | [] => by intro r hr; simp [listRuns] at hr
  | none :: rest => by
    intro r hr
    exact listRuns_ne_nil_mem rest r hr
  | [some x] => by
    intro r hr
    simp [listRuns] at hr
    simp [hr]
  | some x :: none :: rest => by
    intro r hr
    rcases List.mem_cons.mp hr with h | h
    · simp [h]
    · exact listRuns_ne_nil_mem rest r h
  | some x :: some y :: rest => by
    intro r hr
    have hrec := listRuns_ne_nil_mem (some y :: rest)
    revert hr
    show r ∈ (match listRuns (some y :: rest) with
      | q :: qs => (x :: q) :: qs
      | [] => [[x]]) → r ≠ []
    match h : listRuns (some y :: rest) with
    | [] =>
      intro hr
      simp at hr
      simp [hr]
    | q :: qs =>
      intro hr
      rcases List.mem_cons.mp hr with hx | hx
      · simp [hx]
      · exact hrec r (by rw [h]; exact List.mem_cons_of_mem _ hx)

/-- C4 (amended): the returned hunks are exactly the maximal contiguous
runs of consecutive list lines in document order — every run nonempty —
followed by one extra empty hunk produced by the unconditional trailing
flush whenever the document does not end inside a run (in particular when
it has no list lines); the trailing buffer is flushed exactly once. -/
theorem hunks_runs_spec (content : String) :
    parseContentToListHunks content
      = listRuns ((splitOnStr "\n" content).map MDListLine.fromLine)
        ++ (if endsSome ((splitOnStr "\n" content).map MDListLine.fromLine)
            then [] else [[]]) ∧
    (∀ r ∈ listRuns ((splitOnStr "\n" content).map MDListLine.fromLine), r ≠ []) := by
  constructor
  · unfold parseContentToListHunks
    rw [hunkLoop_char, consRuns_nil]
    rfl
  · exact listRuns_ne_nil_mem _

/-- Witness for C4: a document with one list line followed by prose yields
exactly that one-line run plus the trailing empty hunk. -/
theorem hunks_runs_spec_witness :
    parseContentToListHunks "- a\nx"
      = listRuns ((splitOnStr "\n" "- a\nx").map MDListLine.fromLine)
        ++ (if endsSome ((splitOnStr "\n" "- a\nx").map MDListLine.fromLine)
            then [] else [[]]) ∧
    [MDListLine.mk 0 "a"] ∈ listRuns ((splitOnStr "\n" "- a\nx").map MDListLine.fromLine) ∧
    [MDListLine.mk 0 "a"] ≠ [] :=
  ⟨(hunks_runs_spec "- a\nx").1, by decide,
   (hunks_runs_spec "- a\nx").2 [MDListLine.mk 0 "a"] (by decide)⟩

/-! ## The old `srcPath`-based pipeline: `parseContentToTasks` (C10) -/

/-- `line.trimStart()[0] === '-'` of the old `parseContentToListHunks`
(`src/lib.ts`, line 209): the first character after the whitespace prefix
is a dash. -/
def isListElement (line : String) : Bool :=
  match line.data.dropWhile isWS with
  | '-' :: _ => true
  | _ => false

/-- Embedding of the old `parseContentToListHunks` (`src/lib.ts`, lines
205–221): same buffer/flush loop, but lines are classified by
`isListElement` and buffered raw. -/
def parseContentToListHunksOld (content : String) : List (List String) :=
  hunkLoop (fun l => if isListElement l then some l else none)
    (splitOnStr "\n" content) [] []

/-- Backtracking of the unanchored `\s+(.+)` after the dash of
`REGEX_MD_LIST = /^(\s*)-\s+(.+)/`: the greedy `\s+` settles on the
largest `j` in `[1, bound]` such that a `.`-matchable character stands at
position `j` of `rest2` (the remainder after the dash). -/
def largestDotIdx (rest2 : List Char) : Nat → Option Nat
  | 0 => none
  | j + 1 =>
    match rest2.drop (j + 1) with
    | c :: _ => if isDot c then some (j + 1) else largestDotIdx rest2 j
    | [] => largestDotIdx rest2 j

/-- Embedding of the old `MDListLine.create` (`src/lib.ts`, lines
135–142): match `REGEX_MD_LIST` (no end anchor); group 1 is the leading
whitespace, group 2 the maximal run of non-line-terminator characters
after the greedily matched `\s+`. -/
def MDListLine.create (text : String) : Option MDListLine :=
  let s := text.data
  let w1 := (s.takeWhile isWS).length
  match s.drop w1 with
  | '-' :: rest2 =>
    match largestDotIdx rest2 (rest2.takeWhile isWS).length with
    | some j => some ⟨w1, ⟨(rest2.drop j).takeWhile isDot⟩⟩
    | none => none
  | _ => none

/-- The `rawLines.map` of the old `parseListHunkToTree` (`src/lib.ts`,
lines 224–231): classify every line, throwing on the first line that is
not a Markdown list line. -/
def createLines : List String → Except ParseErr (List MDListLine)
  | [] => .ok []
  | l :: rest =>
    match MDListLine.create l with
    | none => .error (.notMDListLine l)
    | some ml =>
      match createLines rest with
      | .error e => .error e
      | .ok ms => .ok (ml :: ms)

/-- Embedding of the old `parseListHunkToTree` (`src/lib.ts`, lines
223–268): classify the raw lines, then run the identical indent walk
(lines 232–267 coincide with lines 711–746 of the new generation, which
`parseListHunkToTree` embeds). -/
def parseListHunkToTreeOld (rawLines : List String) : Except ParseErr MDListNode :=
  match createLines rawLines with
  | .error e => .error e
  | .ok lines => parseListHunkToTree lines

/-- The hunk loop of `parseContentToTasks` (`src/lib.ts`, lines 192–201):
parse each hunk to a tree, classify it, and merge the child root into the
accumulator only when it carries at least one week or day. -/
def hunksToRoot : List (List String) → TaskRoot → Except ParseErr TaskRoot
  | [], acc => .ok acc
  | hunk :: rest, acc =>
    match parseListHunkToTreeOld hunk with
    | .error e => .error e
    | .ok md =>
      let childRoot := parseMDRootToTaskRoot md
      hunksToRoot rest
        (if childRoot.taskWeeks.length > 0 ∨ childRoot.taskDays.length > 0
         then mergeTaskRoots childRoot acc else acc)

/-- The `TaskRoot` accumulated by `parseContentToTasks` before its final
`taskWeeks.length > 0` test. -/
def parseContentToTasksRoot (content : String) : Except ParseErr TaskRoot :=
  hunksToRoot (parseContentToListHunksOld content) ⟨[], [], []⟩

/-- Embedding of `parseContentToTasks` (`src/lib.ts`, lines 189–203);
`undefined` is `none`, a thrown parse error is `.error`. -/
def parseContentToTasks (content : String) : Except ParseErr (Option TaskRoot) :=
  match parseContentToTasksRoot content with
  | .error e => .error e
  | .ok root => .ok (if root.taskWeeks.length > 0 then some root else none)

/-- C10: whenever `parseContentToTasks` returns normally with accumulated
root `root`, it returns `undefined` (`none`) exactly when `root` holds no
week entries; in particular the day-only content
`"- 2025/03/03\n  - foo"` (one valid single day, no week range) yields
`undefined`, so its day task never reaches the caller. -/
theorem parseContentToTasks_spec (content : String) (root : TaskRoot)
    (h : parseContentToTasksRoot content = .ok root) :
    (parseContentToTasks content = .ok none ↔ root.taskWeeks = []) ∧
    parseContentToTasks "- 2025/03/03\n  - foo" = .ok none := by
  constructor
  · unfold parseContentToTasks
    rw [h]
    rcases hw : root.taskWeeks with _ | ⟨w, ws⟩ <;> simp [hw]
  · rfl

/-- Witness for C10: content with no list lines accumulates the empty
root, and `parseContentToTasks` returns `none` on it. -/
theorem parseContentToTasks_spec_witness :
    parseContentToTasksRoot "x" = .ok ⟨[], [], []⟩ ∧
    ((parseContentToTasks "x" = .ok none ↔
        (⟨[], [], []⟩ : TaskRoot).taskWeeks = []) ∧
      parseContentToTasks "- 2025/03/03\n  - foo" = .ok none) :=
  ⟨rfl, parseContentToTasks_spec "x" ⟨[], [], []⟩ rfl⟩

end WeeklyTasks
